import Mathlib

/-!
# Verification of the valleyx valley-floor extraction pipeline

This file gives a shallow embedding, in Lean 4, of the core algorithms of the
`valleyx` repository (valley-floor extraction from a DEM and a stream network),
and settles a list of claims about them.

Conventions used throughout:

* Raster grids are functions on `Fin m × Fin n` (or on `ℤ × ℤ` with explicit
  bounds where the source indexes numpy arrays with possibly-escaping
  coordinates).  Raster cell values are rationals (`ℚ`); the source works with
  floating point numbers, but every claim treated here is about order
  comparisons, arithmetic without rounding subtleties, connectivity and
  control flow, all of which are faithfully represented over `ℚ`.
* Boolean masks are `... → Bool`.
* Fallible code paths (Python exceptions) are modelled with `Except String`
  or `Option`.
* Pandas data frames of profile points are modelled as lists of records.

Each definition is annotated with the source location it embeds.
-/

/-! ## Generic list helpers

Executable replacements for library functions whose Lean core versions do not
reduce inside the kernel (`List.mergeSort` is opaque to `decide`), plus
first-occurrence argmin folds that model `pandas.sort_values(...).iloc[0]`
and `Series.idxmin()`. -/

/-- Insert into a sorted list w.r.t. a boolean `le` (used to model the sorting
steps of `numpy.sort` / `pandas.sort_values`). -/
def insOrd (le : α → α → Bool) (x : α) : List α → List α
  | [] => [x]
  | y :: ys => if le x y then x :: y :: ys else y :: insOrd le x ys

/-- Insertion sort w.r.t. a boolean `le`; a stable, kernel-executable sort. -/
def sortOn (le : α → α → Bool) : List α → List α
  | [] => []
  | x :: xs => insOrd le x (sortOn le xs)

/-- First occurrence of the minimum of `key` over a list: `some` of the
element whose key is strictly smaller than every earlier element's key and at
most every later element's key; `none` on `[]`.  Models
`Series.idxmin()` / `sort_values(..., kind=quicksort).iloc[0]` (the source
relies on *a* minimiser; we fix the first occurrence). -/
def argminBy (key : α → ℚ) : List α → Option α
  | [] => none
  | x :: xs =>
    match argminBy key xs with
    | none => some x
    | some y => if key y < key x then some y else some x

theorem argminBy_ne_none {key : α → ℚ} {a : α} {as : List α} :
    argminBy key (a :: as) ≠ none := by
  simp only [argminBy]
  cases argminBy key as with
  | none => simp
  | some y => by_cases h : key y < key a <;> simp [h]

theorem argminBy_mem {key : α → ℚ} {l : List α} {x : α}
    (h : argminBy key l = some x) : x ∈ l := by
  induction l generalizing x with
  | nil => simp [argminBy] at h
  | cons a as ih =>
    cases has : argminBy key as with
    | none =>
      simp only [argminBy, has] at h
      simp at h
      simp [h]
    | some y =>
      simp only [argminBy, has] at h
      split at h
      · have hy : y = x := by simpa using h
        exact List.mem_cons_of_mem _ (hy ▸ ih has)
      · have ha : a = x := by simpa using h
        exact ha ▸ List.mem_cons_self a as

theorem argminBy_min {key : α → ℚ} {l : List α} {x : α}
    (h : argminBy key l = some x) : ∀ y ∈ l, key x ≤ key y := by
  induction l generalizing x with
  | nil => simp [argminBy] at h
  | cons a as ih =>
    cases has : argminBy key as with
    | none =>
      have hnil : as = [] := by
        cases as with
        | nil => rfl
        | cons b bs => exact absurd has argminBy_ne_none
      subst hnil
      simp only [argminBy] at h
      have hx : a = x := by simpa using h
      intro y hy
      have hya : y = a := by simpa using hy
      rw [← hx]
      exact le_of_eq (congrArg key hya.symm)
    | some z =>
      simp only [argminBy, has] at h
      intro y hy
      rcases List.mem_cons.mp hy with h1 | h1
      · rw [h1]
        split at h
        · next hlt =>
          have hx : z = x := by simpa using h
          rw [← hx]
          exact le_of_lt hlt
        · have hx : a = x := by simpa using h
          rw [← hx]
      · split at h
        · have hx : z = x := by simpa using h
          rw [← hx]
          exact ih has y h1
        · next hnlt =>
          have hx : a = x := by simpa using h
          rw [← hx]
          exact le_trans (not_lt.mp hnlt) (ih has y h1)

/-- If `x` is a member whose key is at most every member's key, and is the
only member attaining that key, then the first-occurrence argmin is `x`. -/
theorem argminBy_unique {key : α → ℚ} {l : List α} {x : α}
    (hmem : x ∈ l) (hlt : ∀ y ∈ l, key x ≤ key y)
    (hstrict : ∀ y ∈ l, key y = key x → y = x) :
    argminBy key l = some x := by
  induction l with
  | nil => simp at hmem
  | cons a as ih =>
    rcases List.mem_cons.mp hmem with h1 | h1
    · subst h1
      cases hrec : argminBy key as with
      | none => simp [argminBy, hrec]
      | some y =>
        have hy : y ∈ as := argminBy_mem hrec
        have h2 : key x ≤ key y := hlt y (List.mem_cons_of_mem _ hy)
        simp [argminBy, hrec, if_neg (not_lt.mpr h2)]
    · have hrec := ih h1 (fun y hy => hlt y (List.mem_cons_of_mem _ hy))
        (fun y hy he => hstrict y (List.mem_cons_of_mem _ hy) he)
      have hxa : key x ≤ key a := hlt a (List.mem_cons_self a as)
      by_cases hlt2 : key x < key a
      · simp [argminBy, hrec, hlt2]
      · have hka : key a = key x := le_antisymm (not_lt.mp hlt2) hxa
        have ha : a = x := hstrict a (List.mem_cons_self a as) hka
        subst ha
        simp [argminBy, hrec, hlt2]

/-! ## Reach relabeling (`src/valleyx/reach_delineation.py`)

`_assign_reach_id` walks the flow-path cells of one segment in flow
accumulation order, incrementing a counter after each break-point cell;
`_relabel_flowpaths` then writes `segment_id * 100 + reach_id` into the
raster. -/

/-- Embeds `_assign_reach_id` (reach_delineation.py lines 290-299): each cell
is assigned the current counter value, and the counter increments *after*
every cell whose id is among the break-point cell ids. -/
def assignReachId (cells : List ℕ) (bps : List ℕ) : List (ℕ × ℕ) :=
  go 0 cells
where
  go : ℕ → List ℕ → List (ℕ × ℕ)
    | _, [] => []
    | r, c :: cs => (c, r) :: go (if c ∈ bps then r + 1 else r) cs

/-- Embeds the composite-label formula of `_relabel_flowpaths`
(reach_delineation.py lines 202-212): `label = segment_id * 100 + reach_id`. -/
def relabelLabel (segmentId reachId : ℕ) : ℕ :=
  segmentId * 100 + reachId

/-- The composite reach labels produced for one segment. -/
def reachLabels (segmentId : ℕ) (cells bps : List ℕ) : List ℕ :=
  (assignReachId cells bps).map (fun x => relabelLabel segmentId x.2)

/-! ## Flowline orientation validation (`src/valleyx/terrain/align_flowlines.py`) -/

/-- A flowline is an ordered list of vertices; flow accumulation sampling at a
point is modelled by a function `fa` (the source samples the nearest raster
cell, an external raster lookup). -/
abbrev Vertex := ℚ × ℚ

/-- Embeds `get_inlet_and_outlet_points` (align_flowlines.py lines 120-128):
sample flow accumulation at both endpoints and order them by `argsort`
(`numpy.argsort` on two elements keeps the original order on ties). -/
def getInletAndOutletPoints (fa : Vertex → ℚ) (line : List Vertex) : Vertex × Vertex :=
  let p0 := line.headD (0, 0)
  let pl := line.getLastD (0, 0)
  if fa pl < fa p0 then (pl, p0) else (p0, pl)

/-- Embeds `flowline_flows_downstream` (align_flowlines.py lines 131-138). -/
def flowlineFlowsDownstream (fa : Vertex → ℚ) (line : List Vertex) : Bool :=
  let se := getInletAndOutletPoints fa line
  decide (se.1 = line.headD (0, 0)) && decide (se.2 = line.getLastD (0, 0))

/-- Embeds `validate_flowline` (align_flowlines.py lines 141-149). -/
def validateFlowline (fa : Vertex → ℚ) (line : List Vertex) :
    Except String (List Vertex) :=
  if flowlineFlowsDownstream fa line then .ok line
  else if flowlineFlowsDownstream fa line.reverse then .ok line.reverse
  else .error "Attempt to repair flowline failed"

/-- A flowline that passes `flowline_flows_downstream` has flow accumulation at
its first vertex at most that at its last vertex. -/
theorem flowsDownstream_le (fa : Vertex → ℚ) (g : List Vertex)
    (hg : flowlineFlowsDownstream fa g = true) :
    fa (g.headD (0, 0)) ≤ fa (g.getLastD (0, 0)) := by
  by_cases hc : fa (g.getLastD (0, 0)) < fa (g.headD (0, 0))
  · simp only [flowlineFlowsDownstream, getInletAndOutletPoints, if_pos hc,
      Bool.and_eq_true, decide_eq_true_eq] at hg
    rw [hg.1]
  · exact not_lt.mp hc

/-- C9: for every flowline after validation, the endpoint with lower sampled
flow accumulation is the first coordinate and the one with higher value the
last; `validate_flowline` returns the line unchanged when it already flows
downstream, the reversed line when the reversal does, and raises otherwise. -/
theorem validateFlowline_orientation (fa : Vertex → ℚ) (line : List Vertex)
    (hne : line ≠ []) :
    (∀ g, validateFlowline fa line = .ok g →
      (g = line ∨ g = line.reverse) ∧
      fa (g.headD (0, 0)) ≤ fa (g.getLastD (0, 0))) ∧
    (flowlineFlowsDownstream fa line = true →
      validateFlowline fa line = .ok line) ∧
    (flowlineFlowsDownstream fa line = false →
      flowlineFlowsDownstream fa line.reverse = true →
      validateFlowline fa line = .ok line.reverse) ∧
    (flowlineFlowsDownstream fa line = false →
      flowlineFlowsDownstream fa line.reverse = false →
      validateFlowline fa line = .error "Attempt to repair flowline failed") := by
  refine ⟨?_, ?_, ?_, ?_⟩
  · intro g hok
    unfold validateFlowline at hok
    split_ifs at hok with h1 h2
    · have hg : line = g := by simpa using hok
      subst hg
      exact ⟨Or.inl rfl, flowsDownstream_le fa line h1⟩
    · have hg : line.reverse = g := by simpa using hok
      subst hg
      exact ⟨Or.inr rfl, flowsDownstream_le fa line.reverse h2⟩
  · intro h1; simp [validateFlowline, h1]
  · intro h1 h2; simp [validateFlowline, h1, h2]
  · intro h1 h2; simp [validateFlowline, h1, h2]

/-- Witness for `validateFlowline_orientation` at a concrete two-vertex
flowline with flow accumulation given by the x coordinate. -/
theorem validateFlowline_orientation_witness :
    (∀ g, validateFlowline (fun v => v.1) [((0:ℚ), (0:ℚ)), (1, 0)] = .ok g →
      (g = [((0:ℚ), (0:ℚ)), (1, 0)] ∨ g = [((0:ℚ), (0:ℚ)), (1, 0)].reverse) ∧
      (fun v : Vertex => v.1) (g.headD (0, 0)) ≤
        (fun v : Vertex => v.1) (g.getLastD (0, 0))) ∧
    (flowlineFlowsDownstream (fun v => v.1) [((0:ℚ), (0:ℚ)), (1, 0)] = true →
      validateFlowline (fun v => v.1) [((0:ℚ), (0:ℚ)), (1, 0)] =
        .ok [((0:ℚ), (0:ℚ)), (1, 0)]) ∧
    (flowlineFlowsDownstream (fun v => v.1) [((0:ℚ), (0:ℚ)), (1, 0)] = false →
      flowlineFlowsDownstream (fun v => v.1) [((0:ℚ), (0:ℚ)), (1, 0)].reverse = true →
      validateFlowline (fun v => v.1) [((0:ℚ), (0:ℚ)), (1, 0)] =
        .ok [((0:ℚ), (0:ℚ)), (1, 0)].reverse) ∧
    (flowlineFlowsDownstream (fun v => v.1) [((0:ℚ), (0:ℚ)), (1, 0)] = false →
      flowlineFlowsDownstream (fun v => v.1) [((0:ℚ), (0:ℚ)), (1, 0)].reverse = false →
      validateFlowline (fun v => v.1) [((0:ℚ), (0:ℚ)), (1, 0)] =
        .error "Attempt to repair flowline failed") :=
  validateFlowline_orientation (fun v => v.1) [((0:ℚ), (0:ℚ)), (1, 0)] (by simp)

/-- C3 counterexample: the composite id `segment_id * 100 + reach_id` is not
collision-free across segments: a segment split into more than 100 reaches
(here: 101 cells, the first 100 of which are break points) produces reach id
100, whose composite label `1 * 100 + 100 = 200` coincides with reach 0 of
segment 2. -/
theorem relabel_collision_cex :
    (1 : ℕ) ≠ 2 ∧
    relabelLabel 1 100 = relabelLabel 2 0 ∧
    (100 ∈ (assignReachId (List.range 101) (List.range 100)).map Prod.snd) ∧
    (0 ∈ (assignReachId [0] []).map Prod.snd) := by
  refine ⟨by decide, by decide, ?_, by decide⟩
  decide

/-- C3 amended: composite reach labels are collision-free across distinct
segments provided every reach id produced by `_assign_reach_id` stays below
100 (i.e. no segment is split into more than 100 reaches). -/
theorem relabelLabel_injective_across_segments
    (s1 s2 : ℕ) (cells1 bps1 cells2 bps2 : List ℕ) (r1 r2 : ℕ)
    (hne : s1 ≠ s2)
    (h1 : r1 ∈ (assignReachId cells1 bps1).map Prod.snd)
    (h2 : r2 ∈ (assignReachId cells2 bps2).map Prod.snd)
    (hb1 : ∀ r ∈ (assignReachId cells1 bps1).map Prod.snd, r < 100)
    (hb2 : ∀ r ∈ (assignReachId cells2 bps2).map Prod.snd, r < 100) :
    relabelLabel s1 r1 ≠ relabelLabel s2 r2 := by
  have hr1 := hb1 r1 h1
  have hr2 := hb2 r2 h2
  simp only [relabelLabel]
  omega

/-- Witness for `relabelLabel_injective_across_segments` on two concrete
one-reach segments. -/
theorem relabelLabel_injective_witness :
    relabelLabel 1 0 ≠ relabelLabel 2 0 :=
  relabelLabel_injective_across_segments 1 2 [5] [] [7] [] 0 0
    (by decide) (by decide) (by decide) (by decide) (by decide)

/-! ## Flow-path tracing (`src/valleyx/floor/flood_extent/path.py`)

The numba kernel `_trace_flowpath_numba` walks a D8 direction raster from a
start cell, stepping to the neighbour designated by the direction code of the
current cell, stopping at the step budget, at a terminal (code 0) cell, or at
the raster edge.  Direction codes use the WhiteboxTools convention
(`DIRMAPS["wbt"]`, path.py lines 20-30). -/

/-- The `DIRMAPS["wbt"]` code → (row offset, col offset) table (path.py lines
20-30).  Codes outside the table are not in the numba typed dict: looking one
up raises, which is modelled by `none`. -/
def wbtDirmap : ℕ → Option (ℤ × ℤ)
  | 64 => some (-1, -1)
  | 128 => some (-1, 0)
  | 1 => some (-1, 1)
  | 32 => some (0, -1)
  | 0 => some (0, 0)
  | 2 => some (0, 1)
  | 16 => some (1, -1)
  | 8 => some (1, 0)
  | 4 => some (1, 1)
  | _ => none

/-- In-bounds predicate for a raster of shape `nrows × ncols`. -/
def inBnd (nrows ncols : ℕ) (r c : ℤ) : Prop :=
  0 ≤ r ∧ r < (nrows : ℤ) ∧ 0 ≤ c ∧ c < (ncols : ℤ)

instance (nrows ncols : ℕ) (r c : ℤ) : Decidable (inBnd nrows ncols r c) := by
  unfold inBnd; infer_instance

/-- Embeds the loop of `_trace_flowpath_numba` (path.py lines 34-58) with a
positive step budget (`num_cells > 0`; the source treats `num_cells = -1` as
unbounded, a case no claim depends on).  Returns the list of cells appended
*after* the current cell; `none` models the KeyError raised when a direction
code is missing from the typed dict. -/
def traceSteps (fdir : ℤ → ℤ → ℕ) (nrows ncols : ℕ) :
    ℕ → ℤ → ℤ → Option (List (ℤ × ℤ))
  | 0, _, _ => some []
  | b + 1, r, c =>
    let d := fdir r c
    if d = 0 then some []
    else
      match wbtDirmap d with
      | none => none
      | some (dr, dc) =>
        if inBnd nrows ncols (r + dr) (c + dc) then
          (traceSteps fdir nrows ncols b (r + dr) (c + dc)).map
            (fun rest => (r + dr, c + dc) :: rest)
        else some []

/-- Embeds `trace_flowpath` / `_trace_flowpath_numba` (path.py lines 34-99):
the returned path starts with the start cell, followed by the traced cells. -/
def traceFlowpath (fdir : ℤ → ℤ → ℕ) (nrows ncols : ℕ) (row col : ℤ)
    (numCells : ℕ) : Option (List (ℤ × ℤ)) :=
  (traceSteps fdir nrows ncols numCells row col).map
    (fun rest => (row, col) :: rest)

/-- One traced step: the direction code of `a` is non-terminal, maps to an
offset, and `b` is the designated in-bounds neighbour. -/
def traceStepRel (fdir : ℤ → ℤ → ℕ) (nrows ncols : ℕ) (a b : ℤ × ℤ) : Prop :=
  fdir a.1 a.2 ≠ 0 ∧
  (∃ dr dc, wbtDirmap (fdir a.1 a.2) = some (dr, dc) ∧
    b = (a.1 + dr, a.2 + dc)) ∧
  inBnd nrows ncols b.1 b.2

/-- The last cell of a trace either carries the terminal code or its
designated neighbour is outside the raster. -/
def traceStopped (fdir : ℤ → ℤ → ℕ) (nrows ncols : ℕ) (l : ℤ × ℤ) : Prop :=
  fdir l.1 l.2 = 0 ∨
  (∀ dr dc, wbtDirmap (fdir l.1 l.2) = some (dr, dc) →
    ¬ inBnd nrows ncols (l.1 + dr) (l.2 + dc))

theorem traceSteps_spec (fdir : ℤ → ℤ → ℕ) (nrows ncols : ℕ)
    (hvalid : ∀ r c, inBnd nrows ncols r c → (wbtDirmap (fdir r c)).isSome) :
    ∀ (b : ℕ) (r c : ℤ), inBnd nrows ncols r c →
      ∃ p, traceSteps fdir nrows ncols b r c = some p ∧
        p.length ≤ b ∧
        (∀ q ∈ p, inBnd nrows ncols q.1 q.2) ∧
        List.Chain' (traceStepRel fdir nrows ncols) ((r, c) :: p) ∧
        (p.length < b →
          traceStopped fdir nrows ncols (((r, c) :: p).getLastD (0, 0))) := by
  intro b
  induction b with
  | zero =>
    intro r c hrc
    exact ⟨[], rfl, le_rfl, by simp, by simp, by omega⟩
  | succ n ih =>
    intro r c hrc
    by_cases hd : fdir r c = 0
    · refine ⟨[], ?_, by simp, by simp, by simp, ?_⟩
      · simp [traceSteps, hd]
      · intro _
        exact Or.inl hd
    · cases hmap : wbtDirmap (fdir r c) with
      | none =>
        exact absurd (hvalid r c hrc) (by simp [hmap])
      | some drc =>
        obtain ⟨dr, dc⟩ := drc
        by_cases hin : inBnd nrows ncols (r + dr) (c + dc)
        · obtain ⟨p, hp, hlen, hmem, hchain, hstop⟩ := ih (r + dr) (c + dc) hin
          refine ⟨(r + dr, c + dc) :: p, ?_, by simpa using hlen, ?_, ?_, ?_⟩
          · simp [traceSteps, hd, hmap, hin, hp]
          · intro q hq
            rcases List.mem_cons.mp hq with h | h
            · subst h; exact hin
            · exact hmem q h
          · refine List.Chain'.cons ?_ hchain
            exact ⟨hd, ⟨dr, dc, hmap, rfl⟩, hin⟩
          · intro hlt
            have : p.length < n := by simpa using hlt
            simpa using hstop this
        · refine ⟨[], ?_, by simp, by simp, by simp, ?_⟩
          · simp [traceSteps, hd, hmap, hin]
          · intro _
            have hl : (((r, c) :: ([] : List (ℤ × ℤ)))).getLastD (0, 0) = (r, c) := rfl
            rw [hl]
            refine Or.inr ?_
            intro dr' dc' hmap'
            rw [hmap] at hmap'
            obtain ⟨h1, h2⟩ : dr = dr' ∧ dc = dc' := by
              have h3 := Option.some.inj hmap'
              exact ⟨congrArg Prod.fst h3, congrArg Prod.snd h3⟩
            rw [← h1, ← h2]
            exact hin

/-- C10: for every in-bounds start cell and positive step budget, the
flow-path trace terminates and returns a path of at most `num_cells + 1`
cells, all within the raster bounds, whose first cell is the start cell and
whose successive cells follow the direction code of their predecessor; the
trace stops early only at a terminal (code 0) cell or at the raster edge. -/
theorem traceFlowpath_spec (fdir : ℤ → ℤ → ℕ) (nrows ncols : ℕ)
    (row col : ℤ) (numCells : ℕ)
    (hvalid : ∀ r c, inBnd nrows ncols r c → (wbtDirmap (fdir r c)).isSome)
    (hstart : inBnd nrows ncols row col) (hpos : 0 < numCells) :
    ∃ p, traceFlowpath fdir nrows ncols row col numCells = some p ∧
      p.length ≤ numCells + 1 ∧
      p.headD (0, 0) = (row, col) ∧
      (∀ q ∈ p, inBnd nrows ncols q.1 q.2) ∧
      List.Chain' (traceStepRel fdir nrows ncols) p ∧
      (p.length < numCells + 1 →
        traceStopped fdir nrows ncols (p.getLastD (0, 0))) := by
  obtain ⟨rest, hr, hlen, hmem, hchain, hstop⟩ :=
    traceSteps_spec fdir nrows ncols hvalid numCells row col hstart
  refine ⟨(row, col) :: rest, ?_, by simpa using hlen, rfl, ?_, hchain, ?_⟩
  · simp [traceFlowpath, hr]
  · intro q hq
    rcases List.mem_cons.mp hq with h | h
    · subst h; exact hstart
    · exact hmem q h
  · intro hlt
    exact hstop (by simpa using hlt)

/-- Witness for `traceFlowpath_spec`: a 1×1 raster whose single cell carries
the terminal code. -/
theorem traceFlowpath_spec_witness :
    ∃ p, traceFlowpath (fun _ _ => 0) 1 1 0 0 1 = some p ∧
      p.length ≤ 1 + 1 ∧
      p.headD (0, 0) = (0, 0) ∧
      (∀ q ∈ p, inBnd 1 1 q.1 q.2) ∧
      List.Chain' (traceStepRel (fun _ _ => 0) 1 1) p ∧
      (p.length < 1 + 1 → traceStopped (fun _ _ => 0) 1 1 (p.getLastD (0, 0))) :=
  traceFlowpath_spec (fun _ _ => 0) 1 1 0 0 1 (fun _ _ _ => rfl)
    (by decide) (by decide)

/-! ## Max-ascent wall-point classification
(`src/valleyx/floor/flood_extent/classify_profile_max_ascent.py`) -/

/-- Embeds `is_wall_point` (classify_profile_max_ascent.py lines 111-127):
trace the (inverted-DEM) flow directions from the candidate cell with budget
`num_cells + 1`, drop the start cell; the candidate qualifies iff at least
`num_cells` cells were traced and the slope at each of the first `num_cells`
traced cells is at or above `slope_threshold`.  `none` models the KeyError on
an invalid direction code. -/
def isWallPoint (fdir : ℤ → ℤ → ℕ) (nrows ncols : ℕ) (slope : ℤ × ℤ → ℚ)
    (slopeThreshold : ℚ) (numCells : ℕ) (r c : ℤ) : Option Bool :=
  match traceSteps fdir nrows ncols (numCells + 1) r c with
  | none => none
  | some rest =>
    if rest.length < numCells then some false
    else some ((rest.take numCells).all (fun q => decide (slopeThreshold ≤ slope q)))

/-- A half-profile candidate record: profile position index, breakpoint flag
(`bp`, curvature < 0), and the raster cell of the point. -/
abbrev HalfPoint := ℕ × Bool × ℤ × ℤ

/-- The first candidate (in order, walking outward from the center) that
`is_wall_point` accepts; `.error` models the KeyError raised inside
`is_wall_point` on an invalid direction code. -/
def firstWallIdx (fdir : ℤ → ℤ → ℕ) (nrows ncols : ℕ) (slope : ℤ × ℤ → ℚ)
    (thr : ℚ) (numCells : ℕ) : List HalfPoint → Except String (Option ℕ)
  | [] => .ok none
  | x :: xs =>
    if x.2.1 then
      match isWallPoint fdir nrows ncols slope thr numCells x.2.2.1 x.2.2.2 with
      | none => .error "KeyError"
      | some true => .ok (some x.1)
      | some false => firstWallIdx fdir nrows ncols slope thr numCells xs
    else firstWallIdx fdir nrows ncols slope thr numCells xs

/-- Embeds `_find_wall_half_max_ascent` (classify_profile_max_ascent.py lines
95-108): the first point of the half profile (the stream) has its `bp` flag
forced to `False`, the second point (the cell next to the stream) to `True`;
the wall point of the side is the first flagged candidate accepted by
`is_wall_point`.  A half profile with fewer than two points raises IndexError
in the source. -/
def findWallHalfMaxAscent (fdir : ℤ → ℤ → ℕ) (nrows ncols : ℕ)
    (slope : ℤ × ℤ → ℚ) (thr : ℚ) (numCells : ℕ) (half : List HalfPoint) :
    Except String (Option ℕ) :=
  match half with
  | p0 :: p1 :: rest =>
    firstWallIdx fdir nrows ncols slope thr numCells
      ((p0.1, false, p0.2.2) :: (p1.1, true, p1.2.2) :: rest)
  | _ => .error "IndexError"

/-- Under a valid direction raster, tracing from an in-bounds cell never
raises. -/
theorem traceSteps_isSome (fdir : ℤ → ℤ → ℕ) (nrows ncols : ℕ)
    (hvalid : ∀ r c, inBnd nrows ncols r c → (wbtDirmap (fdir r c)).isSome)
    (b : ℕ) (r c : ℤ) (hrc : inBnd nrows ncols r c) :
    ∃ rest, traceSteps fdir nrows ncols b r c = some rest := by
  obtain ⟨p, hp, -⟩ := traceSteps_spec fdir nrows ncols hvalid b r c hrc
  exact ⟨p, hp⟩

/-- `firstWallIdx` equals first-match search over the flagged candidates when
every candidate cell is in bounds. -/
theorem firstWallIdx_eq_find (fdir : ℤ → ℤ → ℕ) (nrows ncols : ℕ)
    (slope : ℤ × ℤ → ℚ) (thr : ℚ) (numCells : ℕ)
    (hvalid : ∀ r c, inBnd nrows ncols r c → (wbtDirmap (fdir r c)).isSome)
    (l : List HalfPoint) (hmem : ∀ x ∈ l, inBnd nrows ncols x.2.2.1 x.2.2.2) :
    firstWallIdx fdir nrows ncols slope thr numCells l =
      .ok (((l.filter (fun x => x.2.1)).find?
        (fun x => decide (isWallPoint fdir nrows ncols slope thr numCells
          x.2.2.1 x.2.2.2 = some true))).map (fun x => x.1)) := by
  induction l with
  | nil => rfl
  | cons x xs ih =>
    have hih := ih (fun y hy => hmem y (List.mem_cons_of_mem _ hy))
    by_cases hflag : x.2.1
    · have hx := hmem x (List.mem_cons_self x xs)
      obtain ⟨rest, hrest⟩ :=
        traceSteps_isSome fdir nrows ncols hvalid (numCells + 1) x.2.2.1 x.2.2.2 hx
      have hsome : ∃ b, isWallPoint fdir nrows ncols slope thr numCells
          x.2.2.1 x.2.2.2 = some b := by
        unfold isWallPoint
        rw [hrest]
        by_cases hl : rest.length < numCells <;> simp [hl]
      obtain ⟨b, hb⟩ := hsome
      cases b
      · simp [firstWallIdx, hflag, hb, hih]
      · simp [firstWallIdx, hflag, hb]
    · simp [firstWallIdx, hflag, hih]

/-- C5: a candidate qualifies as a max-ascent wall point iff its traced path
reaches the full requested length and every slope sampled along the first
`num_cells` traced cells is at or above the threshold; the side's wall point
is the first qualifying flagged candidate walking outward from the center
(hence at most one wall point per side). -/
theorem maxAscent_wallPoint_classification (fdir : ℤ → ℤ → ℕ)
    (nrows ncols : ℕ) (slope : ℤ × ℤ → ℚ) (thr : ℚ) (numCells : ℕ)
    (hvalid : ∀ r c, inBnd nrows ncols r c → (wbtDirmap (fdir r c)).isSome) :
    (∀ r c, inBnd nrows ncols r c →
      ∃ b, isWallPoint fdir nrows ncols slope thr numCells r c = some b ∧
        (b = true ↔ ∃ rest,
          traceSteps fdir nrows ncols (numCells + 1) r c = some rest ∧
          numCells ≤ rest.length ∧
          ∀ q ∈ rest.take numCells, thr ≤ slope q)) ∧
    (∀ p0 p1 : HalfPoint, ∀ rest : List HalfPoint,
      (∀ x ∈ p0 :: p1 :: rest, inBnd nrows ncols x.2.2.1 x.2.2.2) →
      findWallHalfMaxAscent fdir nrows ncols slope thr numCells
          (p0 :: p1 :: rest) =
        .ok (((((p0.1, false, p0.2.2) :: (p1.1, true, p1.2.2) :: rest).filter
            (fun x => x.2.1)).find?
          (fun x => decide (isWallPoint fdir nrows ncols slope thr numCells
            x.2.2.1 x.2.2.2 = some true))).map (fun x => x.1))) := by
  constructor
  · intro r c hrc
    obtain ⟨tr, htr⟩ :=
      traceSteps_isSome fdir nrows ncols hvalid (numCells + 1) r c hrc
    by_cases hl : tr.length < numCells
    · refine ⟨false, ?_, ?_⟩
      · unfold isWallPoint
        rw [htr]
        simp [hl]
      · simp only [Bool.false_eq_true, false_iff]
        rintro ⟨rest, hrest, hlen, -⟩
        rw [htr] at hrest
        have : rest = tr := (Option.some.inj hrest).symm
        subst this
        omega
    · refine ⟨(tr.take numCells).all (fun q => decide (thr ≤ slope q)), ?_, ?_⟩
      · unfold isWallPoint
        rw [htr]
        simp [hl]
      · constructor
        · intro hall
          refine ⟨tr, htr, not_lt.mp hl, ?_⟩
          intro q hq
          have := List.all_eq_true.mp hall q hq
          simpa using this
        · rintro ⟨rest, hrest, hlen, hslopes⟩
          rw [htr] at hrest
          have : rest = tr := (Option.some.inj hrest).symm
          subst this
          refine List.all_eq_true.mpr ?_
          intro q hq
          simpa using hslopes q hq
  · intro p0 p1 rest hmem
    unfold findWallHalfMaxAscent
    refine firstWallIdx_eq_find fdir nrows ncols slope thr numCells hvalid _ ?_
    intro x hx
    rcases List.mem_cons.mp hx with h | h
    · subst h
      exact hmem p0 (List.mem_cons_self _ _)
    · rcases List.mem_cons.mp h with h2 | h2
      · subst h2
        exact hmem p1 (List.mem_cons_of_mem _ (List.mem_cons_self _ _))
      · exact hmem x (List.mem_cons_of_mem _ (List.mem_cons_of_mem _ h2))

/-- Witness for `maxAscent_wallPoint_classification` on a 1×1 terminal-code
raster. -/
theorem maxAscent_wallPoint_classification_witness :
    (∀ r c, inBnd 1 1 r c →
      ∃ b, isWallPoint (fun _ _ => 0) 1 1 (fun _ => (0:ℚ)) 0 1 r c = some b ∧
        (b = true ↔ ∃ rest,
          traceSteps (fun _ _ => 0) 1 1 (1 + 1) r c = some rest ∧
          1 ≤ rest.length ∧
          ∀ q ∈ rest.take 1, (0:ℚ) ≤ (fun _ => (0:ℚ)) q)) ∧
    (∀ p0 p1 : HalfPoint, ∀ rest : List HalfPoint,
      (∀ x ∈ p0 :: p1 :: rest, inBnd 1 1 x.2.2.1 x.2.2.2) →
      findWallHalfMaxAscent (fun _ _ => 0) 1 1 (fun _ => (0:ℚ)) 0 1
          (p0 :: p1 :: rest) =
        .ok (((((p0.1, false, p0.2.2) :: (p1.1, true, p1.2.2) :: rest).filter
            (fun x => x.2.1)).find?
          (fun x => decide (isWallPoint (fun _ _ => 0) 1 1 (fun _ => (0:ℚ)) 0 1
            x.2.2.1 x.2.2.2 = some true))).map (fun x => x.1))) :=
  maxAscent_wallPoint_classification (fun _ _ => 0) 1 1 (fun _ => (0:ℚ)) 0 1
    (fun _ _ _ => rfl)

/-! ## Flood-extent thresholds (`src/valleyx/floor/flood_extent/flood.py`) -/

/-- A wall (boundary) point record: its subbasin `streamID`, its hillslope id,
and its sampled HAND value (flood.py, columns of `boundary_pts`). -/
structure WallPt where
  streamID : ℚ
  hillslope : ℚ
  hand : ℚ
deriving DecidableEq, Repr

/-- A row of the flood-threshold table built by `determine_flood_extents`
(flood.py lines 119-153); `threshold = none` models the Python `None` of a
pair with insufficient evidence. -/
structure ThRow where
  streamID : ℚ
  hillslopeID : ℚ
  threshold : Option ℚ
deriving DecidableEq, Repr

/-- Embeds `numpy.quantile` with its default linear interpolation method on a
nonempty sample: with `a` the sorted sample of size `n` and
`h = q * (n - 1)`, the result is `a[⌊h⌋] + (h - ⌊h⌋) * (a[⌊h⌋ + 1] - a[⌊h⌋])`
(the upper index clipped to `n - 1`).  `numpy.quantile` raises on an empty
sample; the `0` returned here for `n = 0` is never produced under the
theorems' hypotheses (`min_points ≥ 1` guards the call in the source's
sufficient-evidence branch). -/
def npQuantile (l : List ℚ) (q : ℚ) : ℚ :=
  let a := sortOn (fun x y => decide (x ≤ y)) l
  let n := a.length
  if n = 0 then 0
  else
    let h := q * ((n : ℚ) - 1)
    let fi := (⌊h⌋).toNat
    let g := h - (fi : ℚ)
    let lo := a.getD fi 0
    let hi := a.getD (min (fi + 1) (n - 1)) 0
    lo + g * (hi - lo)

/-- Embeds the per-pair body of `determine_flood_extents` (flood.py lines
131-152): gather the pair's wall points; below `min_points` of them the pair
gets no threshold; otherwise the threshold is the `percentile` quantile of
their HAND values plus `buffer`. -/
def determineThreshold (pts : Option (List WallPt)) (sid hid : ℚ)
    (minPoints : ℕ) (percentile buffer : ℚ) : Option ℚ :=
  match pts with
  | none => none
  | some l =>
    let sel := l.filter (fun w => decide (w.streamID = sid) && decide (w.hillslope = hid))
    if sel.length < minPoints then none
    else some (npQuantile (sel.map WallPt.hand) percentile + buffer)

/-- Embeds `determine_flood_extents` (flood.py lines 119-153) over the list of
(subbasin, hillslope) pairs present in the rasters: hillslope id 0 is skipped
(`continue` before the row is appended); every other pair contributes one row. -/
def determineFloodExtents (pairs : List (ℚ × ℚ)) (pts : Option (List WallPt))
    (minPoints : ℕ) (percentile buffer : ℚ) : List ThRow :=
  pairs.filterMap fun sh =>
    if sh.2 = 0 then none
    else some ⟨sh.1, sh.2,
      determineThreshold pts sh.1 sh.2 minPoints percentile buffer⟩

/-- Embeds `thresholds.fillna(default_threshold)` guarded by
`if default_threshold is not None` (flood.py lines 88-89). -/
def fillnaThresholds (defaultThreshold : Option ℚ) (rows : List ThRow) :
    List ThRow :=
  match defaultThreshold with
  | none => rows
  | some d => rows.map (fun r => ⟨r.streamID, r.hillslopeID, some (r.threshold.getD d)⟩)

/-- Embeds `apply_flood_thresholds` (flood.py lines 102-116) together with the
pandas dtype semantics of the thresholds table it iterates over: the table is
built with `pd.DataFrame(results)` from rows whose `threshold` entry is either
a float or Python `None`.  When at least one row carries a float, pandas
infers a float64 column and the `None`s become `NaN`, so
`np.isfinite(row["threshold"])` is `False` and the row is skipped.  When
*every* row's threshold is `None`, the column keeps object dtype, the `None`s
survive as `None`, and `np.isfinite(None)` raises
`TypeError` on the first row — modelled by the `.error` branch.  Otherwise
each finite-threshold row floods the cells of its (subbasin, hillslope) pair
whose HAND value is at most the threshold, and rows are unioned
(`np.maximum`). -/
def applyFloodThresholds {ι : Type} (rows : List ThRow)
    (hand subbasins hillslopes : ι → ℚ) : Except String (ι → Bool) :=
  if rows ≠ [] ∧ rows.all (fun r => r.threshold.isNone) then
    .error "TypeError: ufunc isfinite not supported for object dtype"
  else
    .ok (fun p => rows.any (fun r =>
      match r.threshold with
      | none => false
      | some t => decide (subbasins p = r.streamID) &&
          decide (hillslopes p = r.hillslopeID) && decide (hand p ≤ t)))

/-- The tail of `flood` (flood.py lines 79-99): build the threshold table,
apply the optional default, apply the thresholds, and union the flow-path
mask into the flooded mask. -/
def floodFromBoundaryPts {ι : Type} (pairs : List (ℚ × ℚ))
    (pts : Option (List WallPt)) (minPoints : ℕ) (percentile buffer : ℚ)
    (defaultThreshold : Option ℚ) (hand subbasins hillslopes flowpaths : ι → ℚ) :
    Except String (ι → Bool) :=
  (applyFloodThresholds
      (fillnaThresholds defaultThreshold
        (determineFloodExtents pairs pts minPoints percentile buffer))
      hand subbasins hillslopes).map
    (fun fl => fun p => fl p || decide (0 < flowpaths p))

theorem mem_insOrd (le : α → α → Bool) (x : α) (l : List α) (a : α) :
    a ∈ insOrd le x l ↔ a = x ∨ a ∈ l := by
  induction l with
  | nil => simp [insOrd]
  | cons y ys ih =>
    by_cases h : le x y
    · simp [insOrd, h]
    · simp only [insOrd, if_neg h, List.mem_cons, ih]
      tauto

theorem mem_sortOn (le : α → α → Bool) (l : List α) (a : α) :
    a ∈ sortOn le l ↔ a ∈ l := by
  induction l with
  | nil => simp [sortOn]
  | cons x xs ih => simp [sortOn, mem_insOrd, ih]

theorem length_insOrd (le : α → α → Bool) (x : α) (l : List α) :
    (insOrd le x l).length = l.length + 1 := by
  induction l with
  | nil => rfl
  | cons y ys ih =>
    by_cases h : le x y <;> simp [insOrd, h, ih]

theorem length_sortOn (le : α → α → Bool) (l : List α) :
    (sortOn le l).length = l.length := by
  induction l with
  | nil => rfl
  | cons x xs ih => simp [sortOn, length_insOrd, ih]

theorem pairwise_insOrd (le : α → α → Bool)
    (htot : ∀ a b, le a b = true ∨ le b a = true)
    (htrans : ∀ a b c, le a b = true → le b c = true → le a c = true)
    (x : α) (l : List α)
    (h : List.Pairwise (fun a b => le a b = true) l) :
    List.Pairwise (fun a b => le a b = true) (insOrd le x l) := by
  induction l with
  | nil => simp [insOrd]
  | cons y ys ih =>
    rcases List.pairwise_cons.mp h with ⟨hy, hys⟩
    by_cases hxy : le x y
    · rw [insOrd, if_pos hxy]
      refine List.pairwise_cons.mpr ⟨?_, h⟩
      intro b hb
      rcases List.mem_cons.mp hb with hb | hb
      · subst hb; exact hxy
      · exact htrans x y b hxy (hy b hb)
    · rw [insOrd, if_neg hxy]
      refine List.pairwise_cons.mpr ⟨?_, ih hys⟩
      intro b hb
      rcases (mem_insOrd le x ys b).mp hb with hb | hb
      · rw [hb]
        rcases htot x y with h1 | h1
        · exact absurd h1 hxy
        · exact h1
      · exact hy b hb

theorem pairwise_sortOn (le : α → α → Bool)
    (htot : ∀ a b, le a b = true ∨ le b a = true)
    (htrans : ∀ a b c, le a b = true → le b c = true → le a c = true)
    (l : List α) :
    List.Pairwise (fun a b => le a b = true) (sortOn le l) := by
  induction l with
  | nil => simp [sortOn]
  | cons x xs ih => exact pairwise_insOrd le htot htrans x _ ih

/-- A sorted-list prefix-order fact: in a `≤`-pairwise list, earlier entries
are at most later ones (via `getD`). -/
theorem pairwise_getD_mono {l : List ℚ}
    (h : List.Pairwise (fun a b => a ≤ b) l) {i j : ℕ} (hij : i ≤ j)
    (hj : j < l.length) : l.getD i 0 ≤ l.getD j 0 := by
  have hi : i < l.length := lt_of_le_of_lt hij hj
  rw [List.getD_eq_get l 0 hi, List.getD_eq_get l 0 hj]
  rcases lt_or_eq_of_le hij with hlt | heq
  · exact List.pairwise_iff_get.mp h ⟨i, hi⟩ ⟨j, hj⟩ hlt
  · subst heq; exact le_rfl

/-- `numpy.quantile` with `0 ≤ q ≤ 1` on a nonempty sample lies between two
sample values. -/
theorem npQuantile_between (l : List ℚ) (q : ℚ) (hne : l ≠ [])
    (hq0 : 0 ≤ q) (hq1 : q ≤ 1) :
    ∃ lo hi, lo ∈ l ∧ hi ∈ l ∧ lo ≤ npQuantile l q ∧ npQuantile l q ≤ hi := by
  have hlen : (sortOn (fun x y : ℚ => decide (x ≤ y)) l).length = l.length :=
    length_sortOn _ l
  have hl0 : l.length ≠ 0 := fun h => hne (List.length_eq_zero.mp h)
  have hn0 : (sortOn (fun x y : ℚ => decide (x ≤ y)) l).length ≠ 0 := by
    rw [hlen]; exact hl0
  set a := sortOn (fun x y : ℚ => decide (x ≤ y)) l with ha
  set n := a.length with hn
  have hsorted : List.Pairwise (fun x y : ℚ => x ≤ y) a := by
    have := pairwise_sortOn (fun x y : ℚ => decide (x ≤ y))
      (fun x y => by rcases le_total x y with h | h <;> simp [h])
      (fun x y z h1 h2 => by
        simp only [decide_eq_true_eq] at h1 h2 ⊢
        exact le_trans h1 h2) l
    refine List.Pairwise.imp ?_ this
    intro x y hxy
    simpa using hxy
  have hn1 : 1 ≤ n := Nat.one_le_iff_ne_zero.mpr hn0
  have hh0 : 0 ≤ q * ((n : ℚ) - 1) := by
    apply mul_nonneg hq0
    have : (1 : ℚ) ≤ (n : ℚ) := by exact_mod_cast hn1
    linarith
  have hh1 : q * ((n : ℚ) - 1) ≤ (n : ℚ) - 1 := by
    have : (1 : ℚ) ≤ (n : ℚ) := by exact_mod_cast hn1
    nlinarith
  set h := q * ((n : ℚ) - 1) with hd
  have hfl0 : 0 ≤ ⌊h⌋ := Int.floor_nonneg.mpr hh0
  have hfl1 : ⌊h⌋ ≤ (n : ℤ) - 1 := by
    have h1 : ⌊h⌋ ≤ ⌊(n : ℚ) - 1⌋ := Int.floor_le_floor hh1
    have h2 : ⌊(n : ℚ) - 1⌋ = ⌊(n : ℚ)⌋ - 1 := by
      have := Int.floor_sub_int (n : ℚ) 1
      simpa using this
    rw [h2, Int.floor_natCast] at h1
    exact h1
  set fi := (⌊h⌋).toNat with hfi
  have hfin : fi ≤ n - 1 := by omega
  have hcast : ((fi : ℕ) : ℚ) = ((⌊h⌋ : ℤ) : ℚ) := by
    rw [hfi]
    exact_mod_cast Int.toNat_of_nonneg hfl0
  have hfiq : (fi : ℚ) ≤ h := by
    rw [hcast]
    exact Int.floor_le h
  have hgq : h - (fi : ℚ) < 1 := by
    have h1 : h < ⌊h⌋ + 1 := Int.lt_floor_add_one h
    rw [hcast]
    linarith
  have hmin_lt : min (fi + 1) (n - 1) < n := by omega
  have hfi_lt : fi < n := by omega
  have hfile : fi ≤ min (fi + 1) (n - 1) := by omega
  have hlohi : a.getD fi 0 ≤ a.getD (min (fi + 1) (n - 1)) 0 :=
    pairwise_getD_mono hsorted hfile hmin_lt
  have hlomem : a.getD fi 0 ∈ l := by
    rw [← mem_sortOn (fun x y : ℚ => decide (x ≤ y)) l, ← ha]
    rw [List.getD_eq_get a 0 hfi_lt]
    exact List.get_mem a fi hfi_lt
  have hhimem : a.getD (min (fi + 1) (n - 1)) 0 ∈ l := by
    rw [← mem_sortOn (fun x y : ℚ => decide (x ≤ y)) l, ← ha]
    rw [List.getD_eq_get a 0 hmin_lt]
    exact List.get_mem a _ hmin_lt
  have hval : npQuantile l q =
      a.getD fi 0 + (h - (fi : ℚ)) * (a.getD (min (fi + 1) (n - 1)) 0 - a.getD fi 0) := by
    rw [npQuantile]
    rw [← ha]
    rw [if_neg hn0]
  refine ⟨a.getD fi 0, a.getD (min (fi + 1) (n - 1)) 0, hlomem, hhimem, ?_, ?_⟩
  · rw [hval]
    have hg0 : 0 ≤ h - (fi : ℚ) := by linarith
    nlinarith
  · rw [hval]
    have hg0 : 0 ≤ h - (fi : ℚ) := by linarith
    nlinarith

/-- C8: every (subbasin, hillslope ≠ 0) pair contributes a row to the
threshold table; fewer than `min_points` wall points for the pair yields no
threshold (and no error); at least `min_points` wall points yield the
`percentile` quantile of the pair's wall-point HAND values plus `buffer`, a
value bracketed by two of those HAND values. -/
theorem determineFloodExtents_evidence
    (wallPts : List WallPt) (sid hid : ℚ) (pairs : List (ℚ × ℚ))
    (minPoints : ℕ) (percentile buffer : ℚ)
    (hhid : hid ≠ 0) (hpair : (sid, hid) ∈ pairs)
    (hmin : 1 ≤ minPoints) (hq0 : 0 ≤ percentile) (hq1 : percentile ≤ 1) :
    ((⟨sid, hid,
        determineThreshold (some wallPts) sid hid minPoints percentile buffer⟩ : ThRow) ∈
      determineFloodExtents pairs (some wallPts) minPoints percentile buffer) ∧
    ((wallPts.filter (fun w =>
        decide (w.streamID = sid) && decide (w.hillslope = hid))).length < minPoints →
      determineThreshold (some wallPts) sid hid minPoints percentile buffer = none) ∧
    (minPoints ≤ (wallPts.filter (fun w =>
        decide (w.streamID = sid) && decide (w.hillslope = hid))).length →
      ∃ v, determineThreshold (some wallPts) sid hid minPoints percentile buffer =
          some (v + buffer) ∧
        v = npQuantile ((wallPts.filter (fun w =>
          decide (w.streamID = sid) && decide (w.hillslope = hid))).map WallPt.hand)
          percentile ∧
        ∃ lo hi,
          lo ∈ (wallPts.filter (fun w =>
            decide (w.streamID = sid) && decide (w.hillslope = hid))).map WallPt.hand ∧
          hi ∈ (wallPts.filter (fun w =>
            decide (w.streamID = sid) && decide (w.hillslope = hid))).map WallPt.hand ∧
          lo ≤ v ∧ v ≤ hi) := by
  refine ⟨?_, ?_, ?_⟩
  · refine List.mem_filterMap.mpr ⟨(sid, hid), hpair, ?_⟩
    simp [hhid]
  · intro hlt
    simp [determineThreshold, hlt]
  · intro hge
    refine ⟨npQuantile ((wallPts.filter (fun w =>
      decide (w.streamID = sid) && decide (w.hillslope = hid))).map WallPt.hand)
      percentile, ?_, rfl, ?_⟩
    · simp [determineThreshold, Nat.not_lt.mpr hge]
    · apply npQuantile_between
      · have hlen : 1 ≤ ((wallPts.filter (fun w =>
            decide (w.streamID = sid) && decide (w.hillslope = hid))).map
            WallPt.hand).length := by
          rw [List.length_map]
          omega
        intro hemp
        rw [hemp] at hlen
        simp at hlen
      · exact hq0
      · exact hq1

/-- Witness for `determineFloodExtents_evidence` at a single wall point and a
single (subbasin, hillslope) pair. -/
theorem determineFloodExtents_evidence_witness :
    ((⟨1, 1,
        determineThreshold (some [⟨1, 1, 3⟩]) 1 1 1 (1/2) 2⟩ : ThRow) ∈
      determineFloodExtents [(1, 1)] (some [⟨1, 1, 3⟩]) 1 (1/2) 2) ∧
    (((([⟨1, 1, 3⟩] : List WallPt).filter (fun w =>
        decide (w.streamID = 1) && decide (w.hillslope = 1))).length < 1 →
      determineThreshold (some [⟨1, 1, 3⟩]) 1 1 1 (1/2) 2 = none)) ∧
    (1 ≤ (([⟨1, 1, 3⟩] : List WallPt).filter (fun w =>
        decide (w.streamID = 1) && decide (w.hillslope = 1))).length →
      ∃ v, determineThreshold (some [⟨1, 1, 3⟩]) 1 1 1 (1/2) 2 = some (v + 2) ∧
        v = npQuantile ((([⟨1, 1, 3⟩] : List WallPt).filter (fun w =>
          decide (w.streamID = 1) && decide (w.hillslope = 1))).map WallPt.hand)
          (1/2) ∧
        ∃ lo hi,
          lo ∈ (([⟨1, 1, 3⟩] : List WallPt).filter (fun w =>
            decide (w.streamID = 1) && decide (w.hillslope = 1))).map WallPt.hand ∧
          hi ∈ (([⟨1, 1, 3⟩] : List WallPt).filter (fun w =>
            decide (w.streamID = 1) && decide (w.hillslope = 1))).map WallPt.hand ∧
          lo ≤ v ∧ v ≤ hi) :=
  determineFloodExtents_evidence [⟨1, 1, 3⟩] 1 1 [(1, 1)] 1 (1/2) 2
    (by norm_num) (by simp) (le_refl 1) (by norm_num) (by norm_num)

/-- C2 (code bug): in the spec's empty-input scenario — a basin whose pairs
all have an empty wall-point set and no `default_threshold` — every row of the
threshold table is `None`, and `apply_flood_thresholds` raises `TypeError`
(`np.isfinite(None)` on the object-dtype threshold column) instead of letting
`label_floors` return the foundation mask alone. -/
theorem flood_empty_wallpoints_raises :
    determineFloodExtents [(1, 1)] none 5 (4/5) 1 = [⟨1, 1, none⟩] ∧
    fillnaThresholds none (determineFloodExtents [(1, 1)] none 5 (4/5) 1) =
      [⟨1, 1, none⟩] ∧
    @floodFromBoundaryPts Unit [(1, 1)] none 5 (4/5) 1 none
      (fun _ => 0) (fun _ => 1) (fun _ => 1) (fun _ => 0) =
      .error "TypeError: ufunc isfinite not supported for object dtype" := by
  refine ⟨rfl, rfl, ?_⟩
  rfl

/-! ## Grid masks, adjacency, and connected components

The floor / foundation stages work on boolean rasters.  Connected-component
labeling (`skimage.morphology.label`) and hole filling
(`skimage.morphology.remove_small_holes`) are embedded through a
breadth-first closure `greach`: iterating one neighbourhood-expansion step
`m * n` times reaches the fixed point (`greach_fix`), so `greach` computes
exactly the union of connected components meeting the seed set — the same
cells the source's component labeling keeps. -/

/-- A raster cell position. -/
abbrev GridPos (m n : ℕ) := Fin m × Fin n

/-- A boolean raster. -/
abbrev GridMask (m n : ℕ) := GridPos m n → Bool

/-- 8-connectivity (`connectivity=2` in skimage): distinct cells whose row and
column each differ by at most 1. -/
def adj8 {m n : ℕ} (p q : GridPos m n) : Bool :=
  decide (p ≠ q ∧ ((p.1 : ℤ) - (q.1 : ℤ)).natAbs ≤ 1 ∧
    ((p.2 : ℤ) - (q.2 : ℤ)).natAbs ≤ 1)

/-- 4-connectivity (`connectivity=1` in skimage/scipy defaults): cells at
Manhattan distance exactly 1. -/
def adj4 {m n : ℕ} (p q : GridPos m n) : Bool :=
  decide (((p.1 : ℤ) - (q.1 : ℤ)).natAbs + ((p.2 : ℤ) - (q.2 : ℤ)).natAbs = 1)

/-- One closure step: add every `mask` cell adjacent to the current set. -/
def gstep {m n : ℕ} (adj : GridPos m n → GridPos m n → Bool)
    (mask s : GridMask m n) : GridMask m n :=
  fun p => s p || (mask p && decide (∃ q, s q = true ∧ adj q p = true))

/-- Breadth-first closure of `seed` within `mask` under adjacency `adj`,
iterated to the fixed point. -/
def greach {m n : ℕ} (adj : GridPos m n → GridPos m n → Bool)
    (mask seed : GridMask m n) : GridMask m n :=
  (gstep adj mask)^[m * n] seed

/-- One admissible move of a path inside `M`: step to an adjacent cell of the
mask. -/
def gridRel {m n : ℕ} (adj : GridPos m n → GridPos m n → Bool)
    (M : GridMask m n) (x y : GridPos m n) : Prop :=
  adj x y = true ∧ M y = true

theorem gstep_le {m n : ℕ} (adj : GridPos m n → GridPos m n → Bool)
    (mask s : GridMask m n) (p : GridPos m n) (h : s p = true) :
    gstep adj mask s p = true := by
  simp [gstep, h]

theorem iter_le_iter {m n : ℕ} (adj : GridPos m n → GridPos m n → Bool)
    (mask seed : GridMask m n) {i j : ℕ} (hij : i ≤ j) (p : GridPos m n)
    (h : (gstep adj mask)^[i] seed p = true) :
    (gstep adj mask)^[j] seed p = true := by
  induction j with
  | zero =>
    have : i = 0 := Nat.le_zero.mp hij
    subst this
    exact h
  | succ k ih =>
    rcases Nat.lt_or_ge i (k + 1) with hlt | hge
    · have hk := ih (Nat.lt_succ_iff.mp hlt)
      rw [Function.iterate_succ_apply']
      exact gstep_le adj mask _ p hk
    · have : i = k + 1 := le_antisymm hij hge
      subst this
      exact h

theorem seed_le_greach {m n : ℕ} (adj : GridPos m n → GridPos m n → Bool)
    (mask seed : GridMask m n) (p : GridPos m n) (h : seed p = true) :
    greach adj mask seed p = true :=
  iter_le_iter adj mask seed (Nat.zero_le _) p h

theorem iter_cells {m n : ℕ} (adj : GridPos m n → GridPos m n → Bool)
    (mask seed : GridMask m n) (k : ℕ) (p : GridPos m n)
    (h : (gstep adj mask)^[k] seed p = true) :
    seed p = true ∨ mask p = true := by
  induction k generalizing p with
  | zero => exact Or.inl h
  | succ j ih =>
    rw [Function.iterate_succ_apply'] at h
    simp only [gstep, Bool.or_eq_true, Bool.and_eq_true] at h
    rcases h with h | h
    · exact ih p h
    · exact Or.inr h.1

theorem greach_cells {m n : ℕ} (adj : GridPos m n → GridPos m n → Bool)
    (mask seed : GridMask m n) (p : GridPos m n)
    (h : greach adj mask seed p = true) :
    seed p = true ∨ mask p = true :=
  iter_cells adj mask seed (m * n) p h

/-- Strong soundness: a cell of the closure is reached from a seed cell by a
path whose cells all lie in the closure. -/
theorem iter_sound {m n : ℕ} (adj : GridPos m n → GridPos m n → Bool)
    (mask seed : GridMask m n) (k : ℕ) (hk : k ≤ m * n) (p : GridPos m n)
    (h : (gstep adj mask)^[k] seed p = true) :
    ∃ q, seed q = true ∧
      Relation.ReflTransGen (gridRel adj (greach adj mask seed)) q p := by
  induction k generalizing p with
  | zero => exact ⟨p, h, Relation.ReflTransGen.refl⟩
  | succ j ih =>
    rw [Function.iterate_succ_apply'] at h
    simp only [gstep, Bool.or_eq_true, Bool.and_eq_true, decide_eq_true_eq] at h
    rcases h with h | ⟨hmask, q, hq, hadj⟩
    · exact ih (Nat.le_of_succ_le hk) p h
    · obtain ⟨r, hr, hpath⟩ := ih (Nat.le_of_succ_le hk) q hq
      refine ⟨r, hr, hpath.tail ⟨hadj, ?_⟩⟩
      refine iter_le_iter adj mask seed hk p ?_
      rw [Function.iterate_succ_apply']
      simp only [gstep, Bool.or_eq_true, Bool.and_eq_true, decide_eq_true_eq]
      exact Or.inr ⟨hmask, q, hq, hadj⟩

theorem greach_sound {m n : ℕ} (adj : GridPos m n → GridPos m n → Bool)
    (mask seed : GridMask m n) (p : GridPos m n)
    (h : greach adj mask seed p = true) :
    ∃ q, seed q = true ∧
      Relation.ReflTransGen (gridRel adj (greach adj mask seed)) q p :=
  iter_sound adj mask seed (m * n) le_rfl p h

/-- If one closure step adds nothing at stage `j`, all later stages agree with
stage `j`. -/
theorem iter_stab {m n : ℕ} (adj : GridPos m n → GridPos m n → Bool)
    (mask seed : GridMask m n) (j : ℕ)
    (hj : ∀ p, (gstep adj mask)^[j + 1] seed p = (gstep adj mask)^[j] seed p) :
    ∀ (i : ℕ) (p : GridPos m n),
      (gstep adj mask)^[j + i] seed p = (gstep adj mask)^[j] seed p := by
  intro i
  induction i with
  | zero => intro p; rfl
  | succ k ih =>
    intro p
    have heq : (gstep adj mask)^[j + k] seed = (gstep adj mask)^[j] seed :=
      funext ih
    have h1 : (j + (k + 1)) = (j + k) + 1 := by omega
    have h2 := hj p
    rw [Function.iterate_succ_apply'] at h2
    rw [h1, Function.iterate_succ_apply', heq]
    exact h2

/-- The closure is a fixed point of the step: one more expansion of
`greach` adds no cell. -/
theorem greach_fix {m n : ℕ} (adj : GridPos m n → GridPos m n → Bool)
    (mask seed : GridMask m n) :
    ∀ p, gstep adj mask (greach adj mask seed) p = greach adj mask seed p := by
  classical
  set f := gstep adj mask with hf
  set N := m * n with hN
  by_cases hstab : ∃ k, k ≤ N ∧ ∀ p, f^[k + 1] seed p = f^[k] seed p
  · obtain ⟨k, hkN, hk⟩ := hstab
    intro p
    have h1 : ∀ p, f^[N] seed p = f^[k] seed p := by
      intro q
      obtain ⟨i, hi⟩ : ∃ i, N = k + i := ⟨N - k, by omega⟩
      rw [hi]
      exact iter_stab adj mask seed k hk i q
    have h2 : ∀ p, f^[N + 1] seed p = f^[k] seed p := by
      intro q
      obtain ⟨i, hi⟩ : ∃ i, N + 1 = k + i := ⟨N + 1 - k, by omega⟩
      rw [hi]
      exact iter_stab adj mask seed k hk i q
    have h3 : f (f^[N] seed) p = f^[N + 1] seed p :=
      (Function.iterate_succ_apply' f N seed).symm ▸ rfl
    calc gstep adj mask (greach adj mask seed) p
        = f (f^[N] seed) p := rfl
      _ = f^[N + 1] seed p := h3
      _ = f^[k] seed p := h2 p
      _ = f^[N] seed p := (h1 p).symm
      _ = greach adj mask seed p := rfl
  · exfalso
    push_neg at hstab
    have hstrict : ∀ k, k ≤ N →
        (Finset.univ.filter (fun p => f^[k] seed p = true)) ⊂
          (Finset.univ.filter (fun p => f^[k + 1] seed p = true)) := by
      intro k hk
      obtain ⟨p, hp⟩ := hstab k hk
      constructor
      · intro q hq
        simp only [Finset.mem_filter, Finset.mem_univ, true_and] at hq ⊢
        exact iter_le_iter adj mask seed (Nat.le_succ k) q hq
      · intro hsub
        apply hp
        cases h1 : f^[k] seed p
        · cases h2 : f^[k + 1] seed p
          · rfl
          · exfalso
            have hpk1 : p ∈ Finset.univ.filter (fun q => f^[k + 1] seed q = true) :=
              Finset.mem_filter.mpr ⟨Finset.mem_univ p, h2⟩
            have hpk : p ∈ Finset.univ.filter (fun q => f^[k] seed q = true) :=
              hsub hpk1
            rw [Finset.mem_filter, h1] at hpk
            exact Bool.false_ne_true hpk.2
        · rw [iter_le_iter adj mask seed (Nat.le_succ k) p h1]
    have hcard : ∀ k, k ≤ N + 1 →
        k ≤ (Finset.univ.filter (fun p => f^[k] seed p = true)).card := by
      intro k
      induction k with
      | zero => intro _; exact Nat.zero_le _
      | succ j ih =>
        intro hj
        have h1 := ih (by omega)
        have h2 := Finset.card_lt_card (hstrict j (by omega))
        omega
    have hfin : (Finset.univ.filter
        (fun p => f^[N + 1] seed p = true)).card ≤ N := by
      calc (Finset.univ.filter (fun p => f^[N + 1] seed p = true)).card
          ≤ Finset.univ.card := Finset.card_le_univ _
        _ = N := by rw [Finset.card_univ]; simp [hN]
    have := hcard (N + 1) le_rfl
    omega

/-- The closure is closed under adjacent mask cells. -/
theorem greach_closed {m n : ℕ} (adj : GridPos m n → GridPos m n → Bool)
    (mask seed : GridMask m n) (p q : GridPos m n)
    (hp : greach adj mask seed p = true) (hadj : adj p q = true)
    (hq : mask q = true) : greach adj mask seed q = true := by
  rw [← greach_fix adj mask seed q]
  simp only [gstep, Bool.or_eq_true, Bool.and_eq_true, decide_eq_true_eq]
  exact Or.inr ⟨hq, p, hp, hadj⟩

/-- Completeness: any cell connected to a seed cell through mask cells is in
the closure. -/
theorem greach_complete {m n : ℕ} (adj : GridPos m n → GridPos m n → Bool)
    (mask seed : GridMask m n) (q p : GridPos m n) (hq : seed q = true)
    (h : Relation.ReflTransGen (gridRel adj mask) q p) :
    greach adj mask seed p = true := by
  induction h with
  | refl => exact seed_le_greach adj mask seed q hq
  | tail hxy hrel ih => exact greach_closed adj mask seed _ _ ih hrel.1 hrel.2

/-- An endpoint of a nontrivial path inside `M` is in `M`. -/
theorem rtg_endpoint {m n : ℕ} {adj : GridPos m n → GridPos m n → Bool}
    {M : GridMask m n} {u v : GridPos m n}
    (h : Relation.ReflTransGen (gridRel adj M) u v) : v = u ∨ M v = true := by
  induction h with
  | refl => exact Or.inl rfl
  | tail hxy hrel ih => exact Or.inr hrel.2

/-- Paths inside `M` reverse when the adjacency is symmetric and the start
cell lies in `M`. -/
theorem rtg_reverse {m n : ℕ} {adj : GridPos m n → GridPos m n → Bool}
    (hsym : ∀ x y, adj x y = true → adj y x = true) {M : GridMask m n}
    {u v : GridPos m n} (h : Relation.ReflTransGen (gridRel adj M) u v)
    (hu : M u = true) : Relation.ReflTransGen (gridRel adj M) v u := by
  induction h with
  | refl => exact Relation.ReflTransGen.refl
  | tail hxy hrel ih =>
    next w y =>
    have hw : M w = true := by
      rcases rtg_endpoint hxy with he | he
      · rw [he]; exact hu
      · exact he
    exact Relation.ReflTransGen.trans
      (Relation.ReflTransGen.single ⟨hsym _ _ hrel.1, hw⟩) ih

theorem adj4_symm {m n : ℕ} (x y : GridPos m n) (h : adj4 x y = true) :
    adj4 y x = true := by
  simp only [adj4, decide_eq_true_eq] at h ⊢
  omega

theorem adj8_symm {m n : ℕ} (x y : GridPos m n) (h : adj8 x y = true) :
    adj8 y x = true := by
  simp only [adj8, decide_eq_true_eq] at h ⊢
  exact ⟨fun he => h.1 he.symm, by omega, by omega⟩

theorem adj4_le_adj8 {m n : ℕ} (x y : GridPos m n) (h : adj4 x y = true) :
    adj8 x y = true := by
  simp only [adj4, decide_eq_true_eq] at h
  simp only [adj8, decide_eq_true_eq]
  refine ⟨?_, by omega, by omega⟩
  intro he
  subst he
  omega

/-- Horizontal moves: two cells of the same row are 4-connected. -/
theorem grid_connected_row {m n : ℕ} (r : Fin m) (c1 c2 : Fin n) :
    Relation.ReflTransGen (fun x y : GridPos m n => adj4 x y = true)
      (r, c1) (r, c2) := by
  have key : ∀ (k : ℕ) (a b : Fin n), b.val = a.val + k →
      Relation.ReflTransGen (fun x y : GridPos m n => adj4 x y = true)
        (r, a) (r, b) := by
    intro k
    induction k with
    | zero =>
      intro a b hb
      have : a = b := Fin.ext (by omega)
      rw [this]
    | succ j ih =>
      intro a b hb
      have hmid : a.val + j < n := by omega
      have hstep : adj4 ((r, ⟨a.val + j, hmid⟩) : GridPos m n) (r, b) = true := by
        have hv : (((⟨a.val + j, hmid⟩ : Fin n) : ℕ) : ℤ) = ((a.val + j : ℕ) : ℤ) := rfl
        simp only [adj4, decide_eq_true_eq]
        rw [hv]
        omega
      exact (ih a ⟨a.val + j, hmid⟩ rfl).tail hstep
  rcases Nat.le_total c1.val c2.val with h | h
  · exact key (c2.val - c1.val) c1 c2 (by omega)
  · have hrev := key (c1.val - c2.val) c2 c1 (by omega)
    exact Relation.ReflTransGen.symmetric (fun x y hxy => adj4_symm x y hxy) hrev

/-- Vertical moves: two cells of the same column are 4-connected. -/
theorem grid_connected_col {m n : ℕ} (r1 r2 : Fin m) (c : Fin n) :
    Relation.ReflTransGen (fun x y : GridPos m n => adj4 x y = true)
      (r1, c) (r2, c) := by
  have key : ∀ (k : ℕ) (a b : Fin m), b.val = a.val + k →
      Relation.ReflTransGen (fun x y : GridPos m n => adj4 x y = true)
        (a, c) (b, c) := by
    intro k
    induction k with
    | zero =>
      intro a b hb
      have : a = b := Fin.ext (by omega)
      rw [this]
    | succ j ih =>
      intro a b hb
      have hmid : a.val + j < m := by omega
      have hstep : adj4 ((⟨a.val + j, hmid⟩, c) : GridPos m n) (b, c) = true := by
        have hv : (((⟨a.val + j, hmid⟩ : Fin m) : ℕ) : ℤ) = ((a.val + j : ℕ) : ℤ) := rfl
        simp only [adj4, decide_eq_true_eq]
        rw [hv]
        omega
      exact (ih a ⟨a.val + j, hmid⟩ rfl).tail hstep
  rcases Nat.le_total r1.val r2.val with h | h
  · exact key (r2.val - r1.val) r1 r2 (by omega)
  · have hrev := key (r1.val - r2.val) r2 r1 (by omega)
    exact Relation.ReflTransGen.symmetric (fun x y hxy => adj4_symm x y hxy) hrev

/-- The whole grid is 4-connected. -/
theorem grid_connected {m n : ℕ} (p q : GridPos m n) :
    Relation.ReflTransGen (fun x y : GridPos m n => adj4 x y = true) p q := by
  have h1 := grid_connected_row p.1 p.2 q.2
  have h2 := grid_connected_col p.1 q.1 q.2
  exact Relation.ReflTransGen.trans h1 h2

/-! ## Connectivity filtering and morphology
(`src/slopes/floor/connect.py`, `src/valleyx/floor/floor.py`) -/

/-- Embeds `connected` (src/slopes/floor/connect.py lines 7-24): the combined
mask is the union of the flow-path mask and the candidate mask; its
8-connected components are labeled (`skimage.morphology.label` with
`connectivity=2`) and exactly the cells whose component contains a flow-path
cell are kept — i.e. the closure of the flow-path cells inside the combined
mask. -/
def connectedFilter {m n : ℕ} (binary fp : GridMask m n) : GridMask m n :=
  greach adj8 (fun p => fp p || binary p) fp

/-- 3×3 binary dilation with zero out-of-bounds padding (the dilation half of
`scipy.ndimage.binary_closing` with `structure=np.ones((3,3))`,
floor.py line 99). -/
def dilate3 {m n : ℕ} (s : GridMask m n) : GridMask m n :=
  fun p => decide (∃ q, s q = true ∧ ((p.1 : ℤ) - (q.1 : ℤ)).natAbs ≤ 1 ∧
    ((p.2 : ℤ) - (q.2 : ℤ)).natAbs ≤ 1)

/-- The 3×3 structuring-element offsets. -/
def offs3 : List ℤ := [-1, 0, 1]

/-- 3×3 binary erosion with zero border value (the erosion half of
`scipy.ndimage.binary_closing`): a cell survives iff every cell of its 3×3
window exists (is in bounds) and is set. -/
def erode3 {m n : ℕ} (s : GridMask m n) : GridMask m n :=
  fun p => decide (∀ dr ∈ offs3, ∀ dc ∈ offs3,
    ∃ q : GridPos m n, (q.1 : ℤ) = (p.1 : ℤ) + dr ∧ (q.2 : ℤ) = (p.2 : ℤ) + dc ∧
      s q = true)

/-- Embeds `binary_closing(combined.data, structure=np.ones((3, 3)))`
(floor.py line 99): dilation followed by erosion. -/
def closing3 {m n : ℕ} (s : GridMask m n) : GridMask m n :=
  erode3 (dilate3 s)

/-- The 4-connected background component of `p` in the complement of `s`
(`skimage.morphology.remove_small_holes` labels the complement with the
default connectivity 1). -/
def holeComp {m n : ℕ} (s : GridMask m n) (p : GridPos m n) : GridMask m n :=
  greach adj4 (fun q => !s q) (fun q => decide (q = p))

/-- Number of cells of the 4-connected background component of `p`. -/
def holeCompCard {m n : ℕ} (s : GridMask m n) (p : GridPos m n) : ℕ :=
  (Finset.univ.filter (fun q => holeComp s p q = true)).card

/-- Embeds `remove_small_holes(combined.data, num_cells)` (floor.py lines
109-112): a cell is set in the output iff it is set in the input or its
4-connected background component has fewer than `t` cells
(`remove_small_holes` inverts, removes small objects — strictly smaller than
the threshold — and inverts back). -/
def removeSmallHoles {m n : ℕ} (s : GridMask m n) (t : ℕ) : GridMask m n :=
  fun p => s p || decide (holeCompCard s p < t)

/-- Embeds the combination tail of `label_floors` (floor.py lines 90-112):
`combined = foundation ∨ flood_extent`; zero out cells above the optional
`max_floor_slope`; 3×3 binary closing; burn the flow-path cells back in; keep
only the cells connected to the flow-path network; finally fill holes smaller
than the optional `max_fill_area`-derived cell count. -/
def labelFloorsTail {m n : ℕ} (foundationM floodM : GridMask m n)
    (slope : GridPos m n → ℚ) (fp : GridMask m n) (maxFloorSlope : Option ℚ)
    (numCellsFill : Option ℕ) : GridMask m n :=
  let combined1 : GridMask m n := fun p => foundationM p || floodM p
  let combined2 : GridMask m n :=
    match maxFloorSlope with
    | none => combined1
    | some t => fun p => combined1 p && !(decide (t < slope p))
  let combined3 := closing3 combined2
  let combined4 : GridMask m n := fun p => combined3 p || fp p
  let combined5 := connectedFilter combined4 fp
  match numCellsFill with
  | none => combined5
  | some t => removeSmallHoles combined5 t

/-- The floor-connectivity property of claim C1: every floor cell of `final`
is reachable from some flow-path cell by an 8-connected path through floor
cells. -/
def FloorConnectivity {m n : ℕ} (final fp : GridMask m n) : Prop :=
  ∀ p, final p = true → ∃ q, fp q = true ∧
    Relation.ReflTransGen (gridRel adj8 final) q p

theorem rtg_gridRel_mono {m n : ℕ}
    {adja adjb : GridPos m n → GridPos m n → Bool} {M M' : GridMask m n}
    (hadj : ∀ x y, adja x y = true → adjb x y = true)
    (hM : ∀ y, M y = true → M' y = true) {u v : GridPos m n}
    (h : Relation.ReflTransGen (gridRel adja M) u v) :
    Relation.ReflTransGen (gridRel adjb M') u v :=
  Relation.ReflTransGen.mono (fun x y hxy => ⟨hadj x y hxy.1, hM y hxy.2⟩) h

theorem holeComp_self {m n : ℕ} (s : GridMask m n) (p : GridPos m n) :
    holeComp s p p = true :=
  seed_le_greach adj4 (fun q => !s q) (fun q => decide (q = p)) p (by simp)

theorem holeComp_bg {m n : ℕ} (s : GridMask m n) (p x : GridPos m n)
    (hp : s p = false) (hx : holeComp s p x = true) : s x = false := by
  rcases greach_cells adj4 (fun q => !s q) (fun q => decide (q = p)) x hx with h | h
  · simp only [decide_eq_true_eq] at h
    rw [h]; exact hp
  · simpa using h

theorem holeComp_path {m n : ℕ} (s : GridMask m n) (p x : GridPos m n)
    (hx : holeComp s p x = true) :
    Relation.ReflTransGen (gridRel adj4 (holeComp s p)) p x := by
  obtain ⟨q, hq, hpath⟩ :=
    greach_sound adj4 (fun q => !s q) (fun q => decide (q = p)) x hx
  simp only [decide_eq_true_eq] at hq
  exact hq ▸ hpath

/-- Two cells of one 4-connected background component have the same
component. -/
theorem holeComp_eq {m n : ℕ} (s : GridMask m n) (p x : GridPos m n)
    (hp : s p = false) (hx : holeComp s p x = true) :
    ∀ z, holeComp s x z = true ↔ holeComp s p z = true := by
  have hbg : ∀ y, holeComp s p y = true → (!s y) = true := by
    intro y hy
    simp [holeComp_bg s p y hp hy]
  have hbgx : (!s x) = true := hbg x hx
  have hpx : Relation.ReflTransGen (gridRel adj4 (fun q => !s q)) p x :=
    rtg_gridRel_mono (fun a b h => h) hbg (holeComp_path s p x hx)
  have hxp : Relation.ReflTransGen (gridRel adj4 (fun q => !s q)) x p :=
    rtg_reverse adj4_symm hpx (by simp [hp])
  intro z
  constructor
  · intro hz
    have hbgx2 : ∀ y, holeComp s x y = true → (!s y) = true := by
      intro y hy
      rcases greach_cells adj4 (fun q => !s q) (fun q => decide (q = x)) y hy with h | h
      · simp only [decide_eq_true_eq] at h
        rw [h]; exact hbgx
      · exact h
    have hxz : Relation.ReflTransGen (gridRel adj4 (fun q => !s q)) x z :=
      rtg_gridRel_mono (fun a b h => h) hbgx2 (holeComp_path s x z hz)
    exact greach_complete adj4 (fun q => !s q) (fun q => decide (q = p)) p z
      (by simp) (Relation.ReflTransGen.trans hpx hxz)
  · intro hz
    have hpz : Relation.ReflTransGen (gridRel adj4 (fun q => !s q)) p z :=
      rtg_gridRel_mono (fun a b h => h) hbg (holeComp_path s p z hz)
    exact greach_complete adj4 (fun q => !s q) (fun q => decide (q = x)) x z
      (by simp) (Relation.ReflTransGen.trans hxp hpz)

theorem holeCompCard_eq {m n : ℕ} (s : GridMask m n) (p x : GridPos m n)
    (hp : s p = false) (hx : holeComp s p x = true) :
    holeCompCard s x = holeCompCard s p := by
  unfold holeCompCard
  congr 1
  apply Finset.filter_congr
  intro z _
  exact holeComp_eq s p x hp hx z

theorem connectedFilter_sound {m n : ℕ} (binary fp : GridMask m n)
    (p : GridPos m n) (h : connectedFilter binary fp p = true) :
    ∃ q, fp q = true ∧
      Relation.ReflTransGen (gridRel adj8 (connectedFilter binary fp)) q p :=
  greach_sound adj8 (fun x => fp x || binary x) fp p h

theorem connectedFilter_fp {m n : ℕ} (binary fp : GridMask m n)
    (q : GridPos m n) (h : fp q = true) : connectedFilter binary fp q = true :=
  seed_le_greach adj8 (fun x => fp x || binary x) fp q h

/-- The output of the connectivity filter alone satisfies floor
connectivity. -/
theorem floorConn_connectedFilter {m n : ℕ} (binary fp : GridMask m n) :
    FloorConnectivity (connectedFilter binary fp) fp := by
  intro p hp
  exact connectedFilter_sound binary fp p hp

/-- Hole filling after the connectivity filter preserves floor connectivity,
provided at least one flow-path cell exists. -/
theorem floorConn_removeSmallHoles {m n : ℕ} (binary fp : GridMask m n)
    (t : ℕ) (hfp : ∃ q, fp q = true) :
    FloorConnectivity (removeSmallHoles (connectedFilter binary fp) t) fp := by
  obtain ⟨q0, hq0⟩ := hfp
  set cf := connectedFilter binary fp with hcf
  intro p hp
  have hcfq0 : cf q0 = true := connectedFilter_fp binary fp q0 hq0
  have hsub : ∀ y, cf y = true → removeSmallHoles cf t y = true := by
    intro y hy
    simp [removeSmallHoles, hy]
  by_cases hcp : cf p = true
  · obtain ⟨q, hq, hpath⟩ := connectedFilter_sound binary fp p hcp
    exact ⟨q, hq, rtg_gridRel_mono (fun a b h => h) hsub hpath⟩
  · have hpfalse : cf p = false := Bool.eq_false_iff.mpr hcp
    have hcard : holeCompCard cf p < t := by
      simp only [removeSmallHoles, Bool.or_eq_true, decide_eq_true_eq] at hp
      rcases hp with h | h
      · exact absurd h hcp
      · exact h
    have hfill : ∀ y, holeComp cf p y = true → removeSmallHoles cf t y = true := by
      intro y hy
      have hcy : holeCompCard cf y = holeCompCard cf p :=
        holeCompCard_eq cf p y hpfalse hy
      simp [removeSmallHoles, hcy, hcard]
    have hbound : ∃ b d, holeComp cf p b = true ∧ adj4 b d = true ∧
        cf d = true := by
      have hwalk : ∀ x,
          Relation.ReflTransGen (fun a b : GridPos m n => adj4 a b = true) x q0 →
          holeComp cf p x = true →
          ∃ b d, holeComp cf p b = true ∧ adj4 b d = true ∧ cf d = true := by
        intro x hx
        induction hx using Relation.ReflTransGen.head_induction_on with
        | refl =>
          intro hcomp
          have hbgq0 := holeComp_bg cf p q0 hpfalse hcomp
          rw [hcfq0] at hbgq0
          exact absurd hbgq0 (by simp)
        | @head a b' hab hbq ih =>
          intro hcompa
          by_cases hcfb : cf b' = true
          · exact ⟨a, b', hcompa, hab, hcfb⟩
          · have hbgb : (!cf b') = true := by
              rw [Bool.eq_false_iff.mpr hcfb]
              rfl
            have hcompb : holeComp cf p b' = true :=
              greach_closed adj4 (fun q => !cf q) (fun q => decide (q = p))
                a b' hcompa hab hbgb
            exact ih hcompb
      exact hwalk p (grid_connected p q0) (holeComp_self cf p)
    obtain ⟨b, d, hcompb, hadjbd, hcfd⟩ := hbound
    obtain ⟨q, hq, hpathd⟩ := connectedFilter_sound binary fp d hcfd
    have hpath1 : Relation.ReflTransGen
        (gridRel adj8 (removeSmallHoles cf t)) q d :=
      rtg_gridRel_mono (fun a b h => h) hsub hpathd
    have hstep : gridRel adj8 (removeSmallHoles cf t) d b :=
      ⟨adj4_le_adj8 d b (adj4_symm b d hadjbd), hfill b hcompb⟩
    have hpathbp : Relation.ReflTransGen
        (gridRel adj4 (holeComp cf p)) b p :=
      rtg_reverse adj4_symm (holeComp_path cf p b hcompb) (holeComp_self cf p)
    have hpath2 : Relation.ReflTransGen
        (gridRel adj8 (removeSmallHoles cf t)) b p :=
      rtg_gridRel_mono adj4_le_adj8 hfill hpathbp
    exact ⟨q, hq, (hpath1.tail hstep).trans hpath2⟩

/-- C1 amended: provided the flow-path raster contains at least one cell,
every cell marked floor in the final raster produced by the `label_floors`
combination tail is reachable from some flow-path cell via an 8-connected
path through floor cells. -/
theorem labelFloors_floor_connectivity {m n : ℕ}
    (foundationM floodM : GridMask m n) (slope : GridPos m n → ℚ)
    (fp : GridMask m n) (maxFloorSlope : Option ℚ) (numCellsFill : Option ℕ)
    (hfp : ∃ q, fp q = true) :
    FloorConnectivity
      (labelFloorsTail foundationM floodM slope fp maxFloorSlope numCellsFill)
      fp := by
  cases numCellsFill with
  | none => exact floorConn_connectedFilter _ fp
  | some t => exact floorConn_removeSmallHoles _ fp t hfp

/-- C1 counterexample: with an empty flow-path raster and `max_fill_area`
configured (here: hole-size threshold 5 cells on a 2×2 grid), the final
`remove_small_holes` step fills the whole empty grid, producing floor cells
that are not reachable from any flow-path cell — the claim as stated fails on
the final raster. -/
theorem labelFloors_connectivity_cex :
    ¬ FloorConnectivity
      (labelFloorsTail (fun _ => false : GridMask 2 2) (fun _ => false)
        (fun _ => 0) (fun _ => false) none (some 5))
      (fun _ => false) := by
  intro hcl
  have hfinal : labelFloorsTail (fun _ => false : GridMask 2 2) (fun _ => false)
      (fun _ => 0) (fun _ => false) none (some 5)
      ((0 : Fin 2), (0 : Fin 2)) = true := by decide
  obtain ⟨q, hq, -⟩ := hcl ((0 : Fin 2), (0 : Fin 2)) hfinal
  exact Bool.false_ne_true hq

/-- Witness for `labelFloors_floor_connectivity` on a 1×1 grid whose single
cell is a flow-path cell. -/
theorem labelFloors_floor_connectivity_witness :
    FloorConnectivity
      (labelFloorsTail (fun _ => false : GridMask 1 1) (fun _ => false)
        (fun _ => 0) (fun _ => true) none none)
      (fun _ => true) :=
  labelFloors_floor_connectivity (fun _ => false) (fun _ => false) (fun _ => 0)
    (fun _ => true) none none ⟨((0 : Fin 1), (0 : Fin 1)), rfl⟩

/-! ## Foundation (`src/valleyx/floor/foundation/foundation.py`)

`foundation` smooths the slope raster, segments it into felzenszwalb
superpixels, thresholds whole regions by their *median* slope, runs the
connectivity filter seeded at the dilated flow-path mask, removes
above-threshold cells of the dilated band, forces flow-path cells in, and
finally applies a 5×5 closing iterated 3 times.  The gaussian smoothing
(`filter_nan_gaussian_conserving`) and the felzenszwalb segmentation are
external floating-point collaborators; their outputs enter here as the
`slope` and `regions` parameters. -/

/-- Embeds `numpy.median` on a nonempty sample: middle element of the sorted
sample for odd size, mean of the two middle elements for even size (`0` on an
empty sample, which the callers never produce: every region label present in
the raster has at least one cell). -/
def npMedian (l : List ℚ) : ℚ :=
  let a := sortOn (fun x y => decide (x ≤ y)) l
  let k := a.length
  if k % 2 = 1 then a.getD (k / 2) 0
  else (a.getD (k / 2 - 1) 0 + a.getD (k / 2) 0) / 2

/-- All cells of an `m × n` grid. -/
def gridPosList (m n : ℕ) : List (GridPos m n) :=
  ((List.finRange m).map (fun r => (List.finRange n).map (fun c => (r, c)))).join

/-- Embeds `_threshold_region_slope_medians` (foundation.py lines 36-52): a
cell passes iff the median of the (smoothed) slope over its felzenszwalb
region is at most the threshold. -/
def thresholdRegionSlopeMedians {m n : ℕ} (regions : GridPos m n → ℕ)
    (slope : GridPos m n → ℚ) (threshold : ℚ) : GridMask m n :=
  fun p => decide (npMedian (((gridPosList m n).filter
    (fun q => regions q == regions p)).map slope) ≤ threshold)

/-- Embeds `isotropic_dilation(fp, radius=5)` (foundation.py line 60): cells
within Euclidean distance 5 of a flow-path cell. -/
def isoDilate5 {m n : ℕ} (fpMask : GridMask m n) : GridMask m n :=
  fun p => decide (∃ q, fpMask q = true ∧
    ((p.1 : ℤ) - (q.1 : ℤ)) ^ 2 + ((p.2 : ℤ) - (q.2 : ℤ)) ^ 2 ≤ 25)

/-- Embeds `_connectivity` (foundation.py lines 55-66): run
`connected(thresholded, dilated_flow_paths)` — keep the 8-connected
components of `dilated ∪ thresholded` that meet a dilated cell — then clear
dilated-band cells whose slope exceeds the threshold and force flow-path
cells in. -/
def foundationConnectivity {m n : ℕ} (thresholded fpMask : GridMask m n)
    (slope : GridPos m n → ℚ) (apst : ℚ) : GridMask m n :=
  fun p => (connectedFilter thresholded (isoDilate5 fpMask) p &&
      !(isoDilate5 fpMask p && decide (apst < slope p))) || fpMask p

/-- 5×5 binary dilation with zero padding. -/
def dilate5 {m n : ℕ} (s : GridMask m n) : GridMask m n :=
  fun p => decide (∃ q, s q = true ∧ ((p.1 : ℤ) - (q.1 : ℤ)).natAbs ≤ 2 ∧
    ((p.2 : ℤ) - (q.2 : ℤ)).natAbs ≤ 2)

/-- The 5×5 structuring-element offsets. -/
def offs5 : List ℤ := [-2, -1, 0, 1, 2]

/-- 5×5 binary erosion with zero border value. -/
def erode5 {m n : ℕ} (s : GridMask m n) : GridMask m n :=
  fun p => decide (∀ dr ∈ offs5, ∀ dc ∈ offs5,
    ∃ q : GridPos m n, (q.1 : ℤ) = (p.1 : ℤ) + dr ∧ (q.2 : ℤ) = (p.2 : ℤ) + dc ∧
      s q = true)

/-- Embeds `binary_closing(base.data, structure=np.ones((5,5)), iterations=3)`
(foundation.py lines 26-27): scipy applies the three dilations first, then the
three erosions. -/
def closing5iter3 {m n : ℕ} (s : GridMask m n) : GridMask m n :=
  erode5 (erode5 (erode5 (dilate5 (dilate5 (dilate5 s)))))

/-- Embeds `foundation` (foundation.py lines 19-28) from the felzenszwalb
regions onward. -/
def foundationFrom {m n : ℕ} (regions : GridPos m n → ℕ)
    (slope : GridPos m n → ℚ) (fpMask : GridMask m n) (apst : ℚ) :
    GridMask m n :=
  closing5iter3 (foundationConnectivity
    (thresholdRegionSlopeMedians regions slope apst) fpMask slope apst)

/-- The connectivity filter keeps exactly the cells of `dilated ∪ thresholded`
8-connected to a dilated seed cell. -/
theorem connectedFilter_iff {m n : ℕ} (binary fp : GridMask m n)
    (p : GridPos m n) :
    connectedFilter binary fp p = true ↔
      ∃ q, fp q = true ∧ Relation.ReflTransGen
        (gridRel adj8 (fun x => fp x || binary x)) q p := by
  constructor
  · intro h
    obtain ⟨q, hq, hpath⟩ := connectedFilter_sound binary fp p h
    refine ⟨q, hq, rtg_gridRel_mono (fun a b hh => hh) ?_ hpath⟩
    intro y hy
    rcases greach_cells adj8 (fun x => fp x || binary x) fp y hy with h1 | h1
    · simp [h1]
    · exact h1
  · rintro ⟨q, hq, hpath⟩
    exact greach_complete adj8 (fun x => fp x || binary x) fp q p hq hpath

/-- C4 amended: the pre-closing foundation mask contains a cell iff it is a
flow-path cell, or it is 8-connected to the dilated flow-path seed through
cells that are dilated-or-median-thresholded and it is not a dilated-band
cell with slope above the threshold — i.e. the thresholding is by
felzenszwalb-region slope *median*, not per-cell slope. -/
theorem foundationConnectivity_char {m n : ℕ}
    (thresholded fpMask : GridMask m n) (slope : GridPos m n → ℚ) (apst : ℚ)
    (p : GridPos m n) :
    foundationConnectivity thresholded fpMask slope apst p = true ↔
      (fpMask p = true ∨
        (¬(isoDilate5 fpMask p = true ∧ apst < slope p) ∧
          ∃ q, isoDilate5 fpMask q = true ∧
            Relation.ReflTransGen
              (gridRel adj8 (fun x => isoDilate5 fpMask x || thresholded x))
              q p)) := by
  constructor
  · intro h
    rcases Bool.or_eq_true_iff.mp h with h1 | h1
    · rcases Bool.and_eq_true_iff.mp h1 with ⟨hcf, hnot⟩
      right
      refine ⟨?_, (connectedFilter_iff thresholded (isoDilate5 fpMask) p).mp hcf⟩
      rintro ⟨hdil, hslope⟩
      rw [hdil, decide_eq_true hslope] at hnot
      simp at hnot
    · exact Or.inl h1
  · rintro (h | ⟨hn, hex⟩)
    · simp [foundationConnectivity, h]
    · have hcf := (connectedFilter_iff thresholded (isoDilate5 fpMask) p).mpr hex
      simp only [foundationConnectivity, Bool.or_eq_true]
      left
      rw [hcf]
      simp only [Bool.true_and, Bool.not_eq_true']
      cases hdil : isoDilate5 fpMask p
      · rfl
      · simp only [Bool.true_and]
        cases hsl : decide (apst < slope p)
        · rfl
        · exact absurd ⟨hdil, of_decide_eq_true hsl⟩ hn

/-- C4 counterexample: on a 1×7 grid with the flow path in column 0 and slope
1 everywhere except 10 in column 6, with foundation threshold 2 and a single
felzenszwalb region (a constant-to-near-constant smoothed slope image
segments into one region), the cell in column 6 enters the pre-closing
foundation mask — its region's *median* slope is 1 ≤ 2 — although its own
slope 10 exceeds the threshold, it is not a flow-path cell, and it lies
outside the dilated band.  Per-cell thresholding, as the claim states it,
would exclude it. -/
theorem foundation_per_cell_cex :
    foundationConnectivity
      (thresholdRegionSlopeMedians (fun _ : GridPos 1 7 => (0 : ℕ))
        (fun p : GridPos 1 7 => if p.2.val = 6 then 10 else 1) 2)
      (fun p : GridPos 1 7 => decide (p.2.val = 0))
      (fun p : GridPos 1 7 => if p.2.val = 6 then 10 else 1) 2
      ((0 : Fin 1), (6 : Fin 7)) = true ∧
    ¬((fun p : GridPos 1 7 => if p.2.val = 6 then (10 : ℚ) else 1)
        ((0 : Fin 1), (6 : Fin 7)) ≤ 2) ∧
    (fun p : GridPos 1 7 => decide (p.2.val = 0))
      ((0 : Fin 1), (6 : Fin 7)) = false := by
  refine ⟨?_, by decide, by decide⟩
  have hcf : connectedFilter
      (thresholdRegionSlopeMedians (fun _ : GridPos 1 7 => (0 : ℕ))
        (fun p : GridPos 1 7 => if p.2.val = 6 then 10 else 1) 2)
      (isoDilate5 (fun p : GridPos 1 7 => decide (p.2.val = 0)))
      ((0 : Fin 1), (6 : Fin 7)) = true := by
    refine (connectedFilter_iff _ _ _).mpr ⟨((0 : Fin 1), (5 : Fin 7)), ?_, ?_⟩
    · decide
    · exact Relation.ReflTransGen.single ⟨by decide, by decide⟩
  simp only [foundationConnectivity]
  rw [hcf]
  have hdil : isoDilate5 (fun p : GridPos 1 7 => decide (p.2.val = 0))
      ((0 : Fin 1), (6 : Fin 7)) = false := by decide
  rw [hdil]
  rfl

/-! ## Profile gap filter (`src/valleyx/profile/preprocess_profile.py`,
`_ensure_no_gaps`, with `split_profile`/`combine_profile` from
`src/valleyx/floor/flood_extent/split_profile.py`) -/

/-- `series.diff().fillna(0)`: entry 0 is 0, entry `i ≥ 1` is
`s[i] - s[i-1]`. -/
def diffsFilled : List ℚ → List ℚ
  | [] => []
  | a :: rest => 0 :: rest.zipWith (fun x y => x - y) (a :: rest)

/-- `series.diff()` with the leading NaN dropped (as `Series.mode()` ignores
NaN): the successive differences. -/
def trueDiffs : List ℚ → List ℚ
  | [] => []
  | a :: rest => rest.zipWith (fun x y => x - y) (a :: rest)

/-- Occurrence count of a rational in a list (a reduction-friendly
`List.count`). -/
def countQ (x : ℚ) : List ℚ → ℕ
  | [] => 0
  | y :: t => (if y = x then 1 else 0) + countQ x t

/-- `Series.mode().iloc[0]`: the smallest among the most frequent values
(`mode()` returns all modes sorted ascending).  `0` on an empty series, where
the source raises IndexError (profiles reaching `_ensure_no_gaps` have at
least two points). -/
def modeSmallest (l : List ℚ) : ℚ :=
  let maxCnt := (l.map (fun x => countQ x l)).foldr Nat.max 0
  match l.filter (fun x => decide (countQ x l = maxCnt)) with
  | [] => 0
  | h :: t => t.foldr (fun x y => if x ≤ y then x else y) h

/-- `exceed = diff[diff > max_increment]; exceed.idxmin()`: the index (from
`i`) and value of the first occurrence of the smallest entry exceeding
`minc`; `none` when no entry exceeds. -/
def firstMinExceed (minc : ℚ) : List ℚ → ℕ → Option (ℕ × ℚ)
  | [], _ => none
  | v :: rest, i =>
    let tail := firstMinExceed minc rest (i + 1)
    if minc < v then
      match tail with
      | none => some (i, v)
      | some jw => if jw.2 < v then some jw else some (i, v)
    else tail

/-- Embeds `_filter_max_increment` (preprocess_profile.py lines 275-282): if
some successive gap exceeds `minc`, truncate the series before the first
occurrence of the *smallest* exceeding gap (`exceed.idxmin()` picks the
minimum, not the first, exceeding gap); otherwise return the series
unchanged. -/
def filterMaxIncrement (s : List ℚ) (minc : ℚ) : List ℚ :=
  match firstMinExceed minc (diffsFilled s) 0 with
  | none => s
  | some jw => s.take jw.1

/-- Positive side of a profile (`split_profile`,
flood_extent/split_profile.py lines 4-13): alpha ≥ 0, in profile order. -/
def posSide (alphas : List ℚ) : List ℚ :=
  alphas.filter (fun a => decide (0 ≤ a))

/-- Absolute value written with an executable case split (`|·|` through the
lattice instances does not reduce in the kernel). -/
def ratAbs (a : ℚ) : ℚ := if a < 0 then -a else a

/-- Negative side: alpha < 0, absolute values, sorted ascending. -/
def negSide (alphas : List ℚ) : List ℚ :=
  sortOn (fun x y => decide (x ≤ y))
    ((alphas.filter (fun a => decide (a < 0))).map ratAbs)

/-- Embeds `combine_profile` (flood_extent/split_profile.py lines 15-33):
re-negate the negative side and sort the concatenation by alpha. -/
def combineProfile (pos neg : List ℚ) : List ℚ :=
  sortOn (fun x y => decide (x ≤ y)) (pos ++ neg.map (fun a => -a))

/-- Embeds `_ensure_no_gaps` (preprocess_profile.py lines 261-292): the gap
threshold is 3 × the modal spacing of the whole profile's alphas; both sides
are filtered independently and recombined. -/
def ensureNoGaps (alphas : List ℚ) : List ℚ :=
  combineProfile
    (filterMaxIncrement (posSide alphas) (modeSmallest (trueDiffs alphas) * 3))
    (filterMaxIncrement (negSide alphas) (modeSmallest (trueDiffs alphas) * 3))

/-- The gap filter as the claim words it: truncate the side at the last point
before the *first* gap exceeding the threshold (for comparison with the
source's behaviour). -/
def claimedGapFilter (s : List ℚ) (minc : ℚ) : List ℚ :=
  match (diffsFilled s).findIdx? (fun v => decide (minc < v)) with
  | none => s
  | some i => s.take i

/-- `_ensure_no_gaps` as the claim words it. -/
def claimedEnsureNoGaps (alphas : List ℚ) : List ℚ :=
  combineProfile
    (claimedGapFilter (posSide alphas) (modeSmallest (trueDiffs alphas) * 3))
    (claimedGapFilter (negSide alphas) (modeSmallest (trueDiffs alphas) * 3))

/-- C7 counterexample: the profile with alphas -3,…,2,12,13,17 has modal
spacing 1, so the gap threshold is 3; the positive side has gaps 10 (at index
3) and 4 (at index 5), both exceeding 3.  The source truncates before the
*smallest* exceeding gap (the 4), keeping [0,1,2,12,13]; the claim's "first
such gap" reading would truncate before the 10, keeping [0,1,2]. -/
theorem gapFilter_first_gap_cex :
    ensureNoGaps [-3, -2, -1, 0, 1, 2, 12, 13, 17] =
      [-3, -2, -1, 0, 1, 2, 12, 13] ∧
    claimedEnsureNoGaps [-3, -2, -1, 0, 1, 2, 12, 13, 17] =
      [-3, -2, -1, 0, 1, 2] ∧
    ensureNoGaps [-3, -2, -1, 0, 1, 2, 12, 13, 17] ≠
      claimedEnsureNoGaps [-3, -2, -1, 0, 1, 2, 12, 13, 17] := by
  have h1 : ensureNoGaps [-3, -2, -1, 0, 1, 2, 12, 13, 17] =
      [-3, -2, -1, 0, 1, 2, 12, 13] := by
    norm_num [ensureNoGaps, combineProfile, filterMaxIncrement, diffsFilled,
      trueDiffs, modeSmallest, countQ, posSide, negSide, ratAbs,
      firstMinExceed, sortOn, insOrd, List.filter, List.zipWith, List.foldr,
      Nat.max]
  have h2 : claimedEnsureNoGaps [-3, -2, -1, 0, 1, 2, 12, 13, 17] =
      [-3, -2, -1, 0, 1, 2] := by
    norm_num [claimedEnsureNoGaps, combineProfile, claimedGapFilter,
      diffsFilled, trueDiffs, modeSmallest, countQ, posSide, negSide, ratAbs,
      List.findIdx?, sortOn, insOrd, List.filter, List.zipWith, List.foldr,
      Nat.max]
  refine ⟨h1, h2, ?_⟩
  rw [h1, h2]
  simp

theorem firstMinExceed_none_iff (minc : ℚ) (l : List ℚ) (i : ℕ) :
    firstMinExceed minc l i = none ↔ ∀ v ∈ l, ¬ minc < v := by
  induction l generalizing i with
  | nil => simp [firstMinExceed]
  | cons v rest ih =>
    simp only [firstMinExceed]
    by_cases hv : minc < v
    · rw [if_pos hv]
      constructor
      · intro h
        exfalso
        cases htail : firstMinExceed minc rest (i + 1) with
        | none =>
          rw [htail] at h
          simp at h
        | some jw =>
          rw [htail] at h
          have h' : (if jw.2 < v then some jw else some (i, v)) = none := h
          split at h' <;> simp at h'
      · intro h
        exact absurd hv (h v (List.mem_cons_self v rest))
    · rw [if_neg hv, ih (i + 1)]
      constructor
      · intro h u hu
        rcases List.mem_cons.mp hu with he | hu
        · rw [he]; exact hv
        · exact h u hu
      · intro h u hu
        exact h u (List.mem_cons_of_mem _ hu)

theorem firstMinExceed_some_spec (minc : ℚ) :
    ∀ (l : List ℚ) (i j : ℕ) (w : ℚ),
      firstMinExceed minc l i = some (j, w) →
      ∃ jr, j = i + jr ∧ jr < l.length ∧ l.getD jr 0 = w ∧ minc < w ∧
        (∀ k, k < l.length → minc < l.getD k 0 → w ≤ l.getD k 0) ∧
        (∀ k, k < jr → minc < l.getD k 0 → w < l.getD k 0) := by
  intro l
  induction l with
  | nil => intro i j w h; simp [firstMinExceed] at h
  | cons v rest ih =>
    intro i j w h
    simp only [firstMinExceed] at h
    by_cases hv : minc < v
    · rw [if_pos hv] at h
      cases htail : firstMinExceed minc rest (i + 1) with
      | none =>
        rw [htail] at h
        have hpair := Option.some.inj h
        have hj : i = j := congrArg Prod.fst hpair
        have hw : v = w := congrArg Prod.snd hpair
        refine ⟨0, by omega, by simp, by simpa using hw, ?_, ?_, ?_⟩
        · rw [← hw]; exact hv
        · intro k hk hgt
          cases k with
          | zero =>
            simp only [List.getD_cons_zero]
            rw [← hw]
          | succ k' =>
            exfalso
            have hk' : k' < rest.length := by simpa using hk
            have hmem : rest.getD k' 0 ∈ rest := by
              rw [List.getD_eq_get rest 0 hk']
              exact List.get_mem rest k' hk'
            rw [List.getD_cons_succ] at hgt
            exact (firstMinExceed_none_iff minc rest (i + 1)).mp htail _ hmem hgt
        · intro k hk
          omega
      | some jw =>
        rw [htail] at h
        obtain ⟨j', w'⟩ := jw
        have h2 : (if w' < v then some (j', w') else some (i, v)) =
            some (j, w) := h
        obtain ⟨jr', hj', hjr', hget', hgt', hmin', hfirst'⟩ :=
          ih (i + 1) j' w' htail
        by_cases hw' : w' < v
        · rw [if_pos hw'] at h2
          have hpair := Option.some.inj h2
          have hj : j' = j := congrArg Prod.fst hpair
          have hw : w' = w := congrArg Prod.snd hpair
          refine ⟨jr' + 1, by omega, by simpa using hjr', ?_, ?_, ?_, ?_⟩
          · rw [List.getD_cons_succ, hget', hw]
          · rw [← hw]; exact hgt'
          · intro k hk hgt
            cases k with
            | zero =>
              simp only [List.getD_cons_zero]
              rw [← hw]
              exact le_of_lt hw'
            | succ k' =>
              rw [List.getD_cons_succ] at hgt ⊢
              rw [← hw]
              exact hmin' k' (by simpa using hk) hgt
          · intro k hk hgt
            cases k with
            | zero =>
              simp only [List.getD_cons_zero] at hgt
              rw [← hw]
              exact hw'
            | succ k' =>
              rw [List.getD_cons_succ] at hgt
              rw [← hw]
              exact hfirst' k' (by omega) hgt
        · rw [if_neg hw'] at h2
          have hpair := Option.some.inj h2
          have hj : i = j := congrArg Prod.fst hpair
          have hw : v = w := congrArg Prod.snd hpair
          refine ⟨0, by omega, by simp, by simpa using hw, ?_, ?_, ?_⟩
          · rw [← hw]; exact hv
          · intro k hk hgt
            cases k with
            | zero =>
              simp only [List.getD_cons_zero]
              rw [← hw]
            | succ k' =>
              rw [List.getD_cons_succ] at hgt ⊢
              have h1 := hmin' k' (by simpa using hk) hgt
              have h2 : v ≤ w' := not_lt.mp hw'
              rw [← hw]
              exact le_trans h2 h1
          · intro k hk
            omega
    · rw [if_neg hv] at h
      obtain ⟨jr', hj', hjr', hget', hgt', hmin', hfirst'⟩ := ih (i + 1) j w h
      refine ⟨jr' + 1, by omega, by simpa using hjr', ?_, hgt', ?_, ?_⟩
      · rw [List.getD_cons_succ, hget']
      · intro k hk hgt
        cases k with
        | zero =>
          simp only [List.getD_cons_zero] at hgt
          exact absurd hgt hv
        | succ k' =>
          rw [List.getD_cons_succ] at hgt ⊢
          exact hmin' k' (by simpa using hk) hgt
      · intro k hk hgt
        cases k with
        | zero =>
          simp only [List.getD_cons_zero] at hgt
          exact absurd hgt hv
        | succ k' =>
          rw [List.getD_cons_succ] at hgt
          exact hfirst' k' (by omega) hgt

/-- Index `j` carries the first occurrence of the smallest gap of `d`
exceeding `minc`. -/
def IsSmallestGapIdx (d : List ℚ) (minc : ℚ) (j : ℕ) (w : ℚ) : Prop :=
  j < d.length ∧ d.getD j 0 = w ∧ minc < w ∧
  (∀ k, k < d.length → minc < d.getD k 0 → w ≤ d.getD k 0) ∧
  (∀ k, k < j → minc < d.getD k 0 → w < d.getD k 0)

/-- C7 amended: `_ensure_no_gaps` filters each side of the profile with the
threshold 3 × modal spacing; a side with no gap above the threshold is
returned unchanged, and a side with such gaps is truncated at the last point
before the first occurrence of the *smallest* gap above the threshold (the
source's `exceed.idxmin()`), not the first such gap. -/
theorem ensureNoGaps_semantics (alphas s : List ℚ) (minc : ℚ) :
    ensureNoGaps alphas =
      combineProfile
        (filterMaxIncrement (posSide alphas)
          (modeSmallest (trueDiffs alphas) * 3))
        (filterMaxIncrement (negSide alphas)
          (modeSmallest (trueDiffs alphas) * 3)) ∧
    ((∀ v ∈ diffsFilled s, ¬ minc < v) → filterMaxIncrement s minc = s) ∧
    (∀ j w, firstMinExceed minc (diffsFilled s) 0 = some (j, w) →
      filterMaxIncrement s minc = s.take j ∧
      IsSmallestGapIdx (diffsFilled s) minc j w) ∧
    ((∃ v ∈ diffsFilled s, minc < v) →
      ∃ j w, firstMinExceed minc (diffsFilled s) 0 = some (j, w)) := by
  refine ⟨rfl, ?_, ?_, ?_⟩
  · intro h
    rw [filterMaxIncrement, (firstMinExceed_none_iff minc _ 0).mpr h]
  · intro j w hfind
    obtain ⟨jr, hj0, hlen, hget, hgt, hmin, hfirst⟩ :=
      firstMinExceed_some_spec minc (diffsFilled s) 0 j w hfind
    have hjr : jr = j := by omega
    subst hjr
    exact ⟨by rw [filterMaxIncrement, hfind], hlen, hget, hgt, hmin, hfirst⟩
  · rintro ⟨v, hv, hgt⟩
    cases hf : firstMinExceed minc (diffsFilled s) 0 with
    | none => exact absurd hgt ((firstMinExceed_none_iff minc _ 0).mp hf v hv)
    | some jw =>
      obtain ⟨j1, w1⟩ := jw
      exact ⟨j1, w1, rfl⟩

/-! ## Profile recentering (`src/valleyx/profile/preprocess_profile.py`,
`_recenter_on_stream`) -/

/-- Strict lexicographic order on ℚ pairs (primary then secondary sort key of
`sort_values(by=[...])`). -/
def lexLt (a b : ℚ × ℚ) : Prop := a.1 < b.1 ∨ (a.1 = b.1 ∧ a.2 < b.2)

instance (a b : ℚ × ℚ) : Decidable (lexLt a b) := by
  unfold lexLt; infer_instance

/-- Non-strict lexicographic order on ℚ pairs. -/
def lexLe (a b : ℚ × ℚ) : Prop := a.1 < b.1 ∨ (a.1 = b.1 ∧ a.2 ≤ b.2)

theorem lexLt_le {a b : ℚ × ℚ} (h : lexLt a b) : lexLe a b := by
  rcases h with h | ⟨h1, h2⟩
  · exact Or.inl h
  · exact Or.inr ⟨h1, le_of_lt h2⟩

theorem lexLe_refl (a : ℚ × ℚ) : lexLe a a := Or.inr ⟨rfl, le_rfl⟩

theorem lexLe_trans {a b c : ℚ × ℚ} (h1 : lexLe a b) (h2 : lexLe b c) :
    lexLe a c := by
  rcases h1 with h1 | ⟨h1, h1'⟩ <;> rcases h2 with h2 | ⟨h2, h2'⟩
  · exact Or.inl (lt_trans h1 h2)
  · exact Or.inl (h2 ▸ h1)
  · exact Or.inl (h1 ▸ h2)
  · exact Or.inr ⟨h1.trans h2, le_trans h1' h2'⟩

theorem not_lexLt_le {a b : ℚ × ℚ} (h : ¬ lexLt a b) : lexLe b a := by
  unfold lexLt at h
  push_neg at h
  obtain ⟨h1, h2⟩ := h
  rcases eq_or_lt_of_le h1 with he | hlt
  · exact Or.inr ⟨he, h2 he.symm⟩
  · exact Or.inl hlt

/-- First-occurrence argmin w.r.t. the lexicographic key, modelling
`sort_values(by=["hand", "alpha"], key=...).iloc[0]`. -/
def argminLex (key : α → ℚ × ℚ) : List α → Option α
  | [] => none
  | x :: xs =>
    match argminLex key xs with
    | none => some x
    | some y => if lexLt (key y) (key x) then some y else some x

theorem argminLex_mem {key : α → ℚ × ℚ} {l : List α} {x : α}
    (h : argminLex key l = some x) : x ∈ l := by
  induction l generalizing x with
  | nil => simp [argminLex] at h
  | cons a as ih =>
    cases has : argminLex key as with
    | none =>
      simp only [argminLex, has] at h
      simp at h
      simp [h]
    | some y =>
      simp only [argminLex, has] at h
      split at h
      · have hy : y = x := by simpa using h
        exact List.mem_cons_of_mem _ (hy ▸ ih has)
      · have ha : a = x := by simpa using h
        exact ha ▸ List.mem_cons_self a as

theorem argminLex_min {key : α → ℚ × ℚ} {l : List α} {x : α}
    (h : argminLex key l = some x) : ∀ y ∈ l, lexLe (key x) (key y) := by
  induction l generalizing x with
  | nil => simp [argminLex] at h
  | cons a as ih =>
    cases has : argminLex key as with
    | none =>
      have hnil : as = [] := by
        cases as with
        | nil => rfl
        | cons b bs =>
          exfalso
          simp only [argminLex] at has
          cases h2 : argminLex key bs with
          | none =>
            rw [h2] at has
            simp at has
          | some v =>
            rw [h2] at has
            have has2 : (if lexLt (key v) (key b) then some v else some b) =
                none := has
            split at has2 <;> simp at has2
      subst hnil
      simp only [argminLex] at h
      have hx : a = x := by simpa using h
      intro y hy
      have hya : y = a := by simpa using hy
      rw [← hx, hya]
      exact lexLe_refl _
    | some z =>
      simp only [argminLex, has] at h
      intro y hy
      rcases List.mem_cons.mp hy with h1 | h1
      · rw [h1]
        split at h
        · next hlt =>
          have hx : z = x := by simpa using h
          rw [← hx]
          exact lexLt_le hlt
        · have hx : a = x := by simpa using h
          rw [← hx]
          exact lexLe_refl _
      · split at h
        · have hx : z = x := by simpa using h
          rw [← hx]
          exact ih has y h1
        · next hnlt =>
          have hx : a = x := by simpa using h
          rw [← hx]
          exact lexLe_trans (not_lexLt_le hnlt) (ih has y h1)

/-- If `x` is a member that is lexicographically strictly below every other
member, the first-occurrence lex argmin is `x`. -/
theorem argminLex_unique {key : α → ℚ × ℚ} {l : List α} {x : α}
    (hmem : x ∈ l) (hlt : ∀ y ∈ l, y ≠ x → lexLt (key x) (key y)) :
    argminLex key l = some x := by
  induction l with
  | nil => simp at hmem
  | cons a as ih =>
    by_cases hax : a = x
    · subst hax
      cases hrec : argminLex key as with
      | none => simp [argminLex, hrec]
      | some y =>
        have hy : y ∈ as := argminLex_mem hrec
        by_cases hyx : y = a
        · subst hyx
          simp only [argminLex, hrec]
          have : ¬ lexLt (key y) (key y) := by
            unfold lexLt
            simp
          simp [this]
        · have h2 : lexLt (key a) (key y) :=
            hlt y (List.mem_cons_of_mem _ hy) hyx
          have h3 : ¬ lexLt (key y) (key a) := by
            intro hcon
            rcases h2 with h2 | ⟨h2, h2'⟩ <;> rcases hcon with hc | ⟨hc, hc'⟩
            · exact absurd (lt_trans h2 hc) (lt_irrefl _)
            · exact absurd (hc ▸ h2) (lt_irrefl _)
            · exact absurd (h2 ▸ hc) (lt_irrefl _)
            · exact absurd (lt_trans h2' hc') (lt_irrefl _)
          simp [argminLex, hrec, h3]
    · have hxs : x ∈ as := by
        rcases List.mem_cons.mp hmem with h | h
        · exact absurd h.symm hax
        · exact h
      have hrec := ih hxs (fun y hy hne => hlt y (List.mem_cons_of_mem _ hy) hne)
      have h2 : lexLt (key x) (key a) := hlt a (List.mem_cons_self a as) hax
      simp [argminLex, hrec, h2]

/-- One cross-section profile point with the columns `_recenter_on_stream`
reads.  `flow_path` and `hillslope` raster samples may be NaN, modelled by
`Option` (`none` = NaN). -/
structure ProfPoint where
  pointID : ℕ
  streamID : ℚ
  alpha : ℚ
  hand : ℚ
  flowPath : Option ℚ
  hillslope : Option ℚ
deriving DecidableEq, Repr

/-- pandas `!=` over possibly-NaN values: `True` unless both operands are
non-NaN and equal (in particular `NaN != NaN` is `True`). -/
def pandasNeq (a b : Option ℚ) : Bool :=
  !(a.isSome && decide (a = b))

/-- Shift a point's alpha by the calibration offset
(`profile['alpha'] - calibration_alpha`). -/
def shiftAlpha (a : ℚ) (p : ProfPoint) : ProfPoint :=
  { p with alpha := p.alpha - a }

/-- Drop rows with an already-seen `pointID`, keeping first occurrences
(`hs_changes[~hs_changes['pointID'].duplicated(keep='first')]`). -/
def dedupByPointID (l : List ProfPoint) : List ProfPoint :=
  go [] l
where
  go (seen : List ℕ) : List ProfPoint → List ProfPoint
    | [] => []
    | p :: rest =>
      if p.pointID ∈ seen then go seen rest
      else p :: go (p.pointID :: seen) rest

/-- Embeds the hillslope-boundary candidate rows of `_recenter_on_stream`
(preprocess_profile.py lines 204-208): rows whose hillslope differs from the
previous row's (`shift()`, first row compares against NaN) or from the next
row's (`shift(-1)`, last row compares against NaN), concatenated and
de-duplicated by `pointID` keeping first occurrences. -/
def hsChangeCandidates (P : List ProfPoint) : List ProfPoint :=
  let hs := P.map (fun p => p.hillslope)
  let prev := none :: hs.dropLast
  let next := hs.drop 1 ++ [none]
  let sel1 := ((P.zip prev).filter
    (fun x => pandasNeq x.2 x.1.hillslope)).map Prod.fst
  let sel2 := ((P.zip next).filter
    (fun x => pandasNeq x.2 x.1.hillslope)).map Prod.fst
  dedupByPointID (sel1 ++ sel2)

/-- Embeds `_recenter_on_stream` (preprocess_profile.py lines 162-216).  The
stream points are the rows whose `flow_path` equals the profile's `streamID`;
with exactly one such row its alpha is the calibration offset, with several
the row with minimal (HAND, |alpha|) in lexicographic order is used
(`sort_values(by=['hand', 'alpha'], key=...).iloc[0]`; pandas' unstable sort
returns *a* minimiser — we fix the first occurrence).  Without stream points
the candidate hillslope-boundary row with minimal |alpha| calibrates.  All
alphas are then shifted by the calibration offset; with no calibration point
(empty profile) the profile is returned unchanged (the source would raise on
an empty profile when reading `streamID`). -/
def recenterOnStream (P : List ProfPoint) : List ProfPoint :=
  match P with
  | [] => []
  | p0 :: _ =>
    let sid := p0.streamID
    let fps := P.filter (fun p => decide (p.flowPath = some sid))
    let calib : Option ℚ :=
      match fps with
      | [] =>
        match argminBy (fun p => ratAbs p.alpha) (hsChangeCandidates P) with
        | none => none
        | some c => some c.alpha
      | [q] => some q.alpha
      | _ :: _ :: _ =>
        match argminLex (fun p => (p.hand, ratAbs p.alpha)) fps with
        | none => none
        | some c => some c.alpha
    match calib with
    | none => P
    | some a => P.map (shiftAlpha a)

theorem ratAbs_nonneg (x : ℚ) : 0 ≤ ratAbs x := by
  unfold ratAbs
  split
  · next h => linarith
  · next h => exact not_lt.mp h

theorem ratAbs_pos {x : ℚ} (h : x ≠ 0) : 0 < ratAbs x := by
  rcases lt_trichotomy x 0 with h1 | h1 | h1
  · simp only [ratAbs, if_pos h1]
    linarith
  · exact absurd h1 h
  · simp only [ratAbs, if_neg (not_lt.mpr (le_of_lt h1))]
    exact h1

theorem ratAbs_zero : ratAbs 0 = 0 := rfl

theorem shiftAlpha_zero (p : ProfPoint) : shiftAlpha 0 p = p := by
  cases p
  simp [shiftAlpha]

theorem map_shiftAlpha_zero (P : List ProfPoint) : P.map (shiftAlpha 0) = P := by
  induction P with
  | nil => rfl
  | cons p ps ih => simp [shiftAlpha_zero, ih]

theorem shiftAlpha_inj {a : ℚ} {p q : ProfPoint}
    (h : shiftAlpha a p = shiftAlpha a q) : p = q := by
  cases p
  cases q
  simp only [shiftAlpha, ProfPoint.mk.injEq] at h ⊢
  obtain ⟨h1, h2, h3, h4, h5, h6⟩ := h
  refine ⟨h1, h2, ?_, h4, h5, h6⟩
  linarith

theorem shiftAlpha_alpha (a : ℚ) (p : ProfPoint) :
    (shiftAlpha a p).alpha = p.alpha - a := rfl

/-- Filtering commutes with mapping under a predicate the map preserves. -/
theorem filter_map_comm {α : Type} (f : α → α) (p : α → Bool)
    (hf : ∀ x, p (f x) = p x) (l : List α) :
    (l.map f).filter p = (l.filter p).map f := by
  induction l with
  | nil => rfl
  | cons x xs ih =>
    simp only [List.map_cons, List.filter_cons, hf x]
    cases p x
    · simpa using ih
    · simpa using ih

theorem shiftAlpha_hillslope (a : ℚ) (p : ProfPoint) :
    (shiftAlpha a p).hillslope = p.hillslope := rfl

theorem shiftAlpha_flowPath (a : ℚ) (p : ProfPoint) :
    (shiftAlpha a p).flowPath = p.flowPath := rfl

theorem shiftAlpha_hand (a : ℚ) (p : ProfPoint) :
    (shiftAlpha a p).hand = p.hand := rfl

theorem fps_filter_shift (a sid : ℚ) (P : List ProfPoint) :
    (P.map (shiftAlpha a)).filter (fun p => decide (p.flowPath = some sid)) =
      (P.filter (fun p => decide (p.flowPath = some sid))).map (shiftAlpha a) :=
  filter_map_comm (shiftAlpha a) (fun p => decide (p.flowPath = some sid))
    (fun _ => rfl) P

theorem hillslopes_map_shift (a : ℚ) (P : List ProfPoint) :
    (P.map (shiftAlpha a)).map (fun p => p.hillslope) =
      P.map (fun p => p.hillslope) := by
  induction P with
  | nil => rfl
  | cons p ps ih =>
    simp only [List.map_cons, shiftAlpha_hillslope, ih]

theorem dedup_go_shift (a : ℚ) (seen : List ℕ) (l : List ProfPoint) :
    dedupByPointID.go seen (l.map (shiftAlpha a)) =
      (dedupByPointID.go seen l).map (shiftAlpha a) := by
  induction l generalizing seen with
  | nil => rfl
  | cons p ps ih =>
    simp only [List.map_cons, dedupByPointID.go]
    have hid : (shiftAlpha a p).pointID = p.pointID := rfl
    rw [hid]
    by_cases h : p.pointID ∈ seen
    · simp only [if_pos h]
      exact ih seen
    · simp only [if_neg h, List.map_cons]
      rw [ih (p.pointID :: seen)]

theorem hsChangeCandidates_shift (a : ℚ) (P : List ProfPoint) :
    hsChangeCandidates (P.map (shiftAlpha a)) =
      (hsChangeCandidates P).map (shiftAlpha a) := by
  simp only [hsChangeCandidates]
  rw [hillslopes_map_shift]
  rw [List.zip_map_left, List.zip_map_left]
  rw [filter_map_comm (Prod.map (shiftAlpha a) id)
      (fun x : ProfPoint × Option ℚ => pandasNeq x.2 x.1.hillslope) (fun _ => rfl),
    filter_map_comm (Prod.map (shiftAlpha a) id)
      (fun x : ProfPoint × Option ℚ => pandasNeq x.2 x.1.hillslope) (fun _ => rfl)]
  rw [List.map_map, List.map_map]
  have hcomp : (Prod.fst ∘ Prod.map (shiftAlpha a) id) =
      ((shiftAlpha a) ∘ (Prod.fst : ProfPoint × Option ℚ → ProfPoint)) := rfl
  rw [hcomp]
  rw [← List.map_map, ← List.map_map]
  rw [← List.map_append]
  exact dedup_go_shift a [] _

theorem mem_hsChangeCandidates {P : List ProfPoint} {x : ProfPoint}
    (h : x ∈ hsChangeCandidates P) : x ∈ P := by
  have hsub : ∀ (seen : List ℕ) (l : List ProfPoint) (y : ProfPoint),
      y ∈ dedupByPointID.go seen l → y ∈ l := by
    intro seen l
    induction l generalizing seen with
    | nil => intro y hy; exact absurd hy (by simp [dedupByPointID.go])
    | cons p ps ih =>
      intro y hy
      simp only [dedupByPointID.go] at hy
      by_cases hmem : p.pointID ∈ seen
      · rw [if_pos hmem] at hy
        exact List.mem_cons_of_mem _ (ih seen y hy)
      · rw [if_neg hmem] at hy
        rcases List.mem_cons.mp hy with he | hy
        · rw [he]; exact List.mem_cons_self _ _
        · exact List.mem_cons_of_mem _ (ih _ y hy)
  unfold hsChangeCandidates at h
  have h2 := hsub [] _ x h
  rcases List.mem_append.mp h2 with h3 | h3 <;>
  · obtain ⟨pair, hpair, he⟩ := List.mem_map.mp h3
    have := List.of_mem_zip (List.mem_of_mem_filter hpair)
    rw [← he]
    exact this.1

theorem alpha_inj_of_pairwise {P : List ProfPoint}
    (hdist : P.Pairwise (fun p q => p.alpha ≠ q.alpha)) {x y : ProfPoint}
    (hx : x ∈ P) (hy : y ∈ P) (he : x.alpha = y.alpha) : x = y := by
  by_contra hne
  have hsymm : Symmetric (fun p q : ProfPoint => p.alpha ≠ q.alpha) :=
    fun p q h h2 => h h2.symm
  exact List.Pairwise.forall hsymm hdist hx hy hne he

theorem lexLe_fst {a b : ℚ × ℚ} (h : lexLe a b) : a.1 ≤ b.1 := by
  rcases h with h | ⟨h, -⟩
  · exact le_of_lt h
  · exact le_of_eq h

theorem argminLex_ne_none {key : α → ℚ × ℚ} {a : α} {as : List α} :
    argminLex key (a :: as) ≠ none := by
  simp only [argminLex]
  cases argminLex key as with
  | none => simp
  | some y => by_cases h : lexLt (key y) (key a) <;> simp [h]

theorem shiftAlpha_streamID (a : ℚ) (p : ProfPoint) :
    (shiftAlpha a p).streamID = p.streamID := rfl

/-- C6: profile recentering is idempotent.  For every cross-section profile
whose points carry pairwise-distinct alpha values (alpha is the signed
distance along the cross-section, so distinct rows sample distinct stations),
applying `_recenter_on_stream` twice yields exactly the same profile — and in
particular the same alpha values — as applying it once: the second pass picks
the same calibration point, whose alpha is now `0`, and shifting by `0` is the
identity. -/
theorem recenterOnStream_idempotent (P : List ProfPoint)
    (hdist : List.Pairwise (fun p q => p.alpha ≠ q.alpha) P) :
    recenterOnStream (recenterOnStream P) = recenterOnStream P := by
  cases P with
  | nil => rfl
  | cons p0 rest =>
    cases hfps : (p0 :: rest).filter
        (fun p => decide (p.flowPath = some p0.streamID)) with
    | nil =>
      cases hc : argminBy (fun p => ratAbs p.alpha)
          (hsChangeCandidates (p0 :: rest)) with
      | none =>
        have h1 : recenterOnStream (p0 :: rest) = p0 :: rest := by
          simp only [recenterOnStream]
          rw [hfps, hc]
        rw [h1]
        exact h1
      | some c =>
        have hcmem : c ∈ hsChangeCandidates (p0 :: rest) := argminBy_mem hc
        have hzeroc : ratAbs ((shiftAlpha c.alpha c).alpha) = 0 := by
          rw [shiftAlpha_alpha, sub_self, ratAbs_zero]
        have hargs : argminBy (fun p => ratAbs p.alpha)
            ((hsChangeCandidates (p0 :: rest)).map (shiftAlpha c.alpha)) =
            some (shiftAlpha c.alpha c) := by
          apply argminBy_unique
          · exact List.mem_map_of_mem _ hcmem
          · intro y hy
            rw [hzeroc]
            exact ratAbs_nonneg _
          · intro y hy he
            obtain ⟨z, hz, hzy⟩ := List.mem_map.mp hy
            rw [← hzy] at he ⊢
            rw [hzeroc, shiftAlpha_alpha] at he
            have hz0 : z.alpha - c.alpha = 0 := by
              by_contra hne
              exact absurd he (ne_of_gt (ratAbs_pos hne))
            have hza : z.alpha = c.alpha := by linarith
            have hzc : z = c := alpha_inj_of_pairwise hdist
              (mem_hsChangeCandidates hz) (mem_hsChangeCandidates hcmem) hza
            rw [hzc]
        have h1 : recenterOnStream (p0 :: rest) =
            (p0 :: rest).map (shiftAlpha c.alpha) := by
          simp only [recenterOnStream]
          rw [hfps, hc]
        rw [h1]
        have hmap : (p0 :: rest).map (shiftAlpha c.alpha) =
            shiftAlpha c.alpha p0 :: rest.map (shiftAlpha c.alpha) := rfl
        rw [hmap]
        simp only [recenterOnStream, shiftAlpha_streamID]
        rw [← hmap, fps_filter_shift, hfps, hsChangeCandidates_shift]
        rw [hargs]
        show ((p0 :: rest).map (shiftAlpha c.alpha)).map
            (shiftAlpha ((shiftAlpha c.alpha c).alpha)) =
          (p0 :: rest).map (shiftAlpha c.alpha)
        rw [shiftAlpha_alpha, sub_self, map_shiftAlpha_zero]
    | cons q qtail =>
      cases qtail with
      | nil =>
        have h1 : recenterOnStream (p0 :: rest) =
            (p0 :: rest).map (shiftAlpha q.alpha) := by
          simp only [recenterOnStream]
          rw [hfps]
        rw [h1]
        have hmap : (p0 :: rest).map (shiftAlpha q.alpha) =
            shiftAlpha q.alpha p0 :: rest.map (shiftAlpha q.alpha) := rfl
        rw [hmap]
        simp only [recenterOnStream, shiftAlpha_streamID]
        rw [← hmap, fps_filter_shift, hfps]
        show ((p0 :: rest).map (shiftAlpha q.alpha)).map
            (shiftAlpha ((shiftAlpha q.alpha q).alpha)) =
          (p0 :: rest).map (shiftAlpha q.alpha)
        rw [shiftAlpha_alpha, sub_self, map_shiftAlpha_zero]
      | cons q2 more =>
        cases hcl : argminLex (fun p => (p.hand, ratAbs p.alpha))
            (q :: q2 :: more) with
        | none =>
          have h1 : recenterOnStream (p0 :: rest) = p0 :: rest := by
            simp only [recenterOnStream]
            rw [hfps, hcl]
          rw [h1]
          exact h1
        | some c =>
          have hcmem : c ∈ q :: q2 :: more := argminLex_mem hcl
          have hcP : c ∈ p0 :: rest := by
            have hcf : c ∈ (p0 :: rest).filter
                (fun p => decide (p.flowPath = some p0.streamID)) := by
              rw [hfps]
              exact hcmem
            exact List.mem_of_mem_filter hcf
          have hmin := argminLex_min hcl
          have hargl : argminLex (fun p => (p.hand, ratAbs p.alpha))
              ((q :: q2 :: more).map (shiftAlpha c.alpha)) =
              some (shiftAlpha c.alpha c) := by
            apply argminLex_unique
            · exact List.mem_map_of_mem _ hcmem
            · intro y hy hne
              obtain ⟨z, hz, hzy⟩ := List.mem_map.mp hy
              have hzc : z ≠ c := by
                intro he
                rw [he] at hzy
                exact hne hzy.symm
              have hzP : z ∈ p0 :: rest := by
                have hzf : z ∈ (p0 :: rest).filter
                    (fun p => decide (p.flowPath = some p0.streamID)) := by
                  rw [hfps]
                  exact hz
                exact List.mem_of_mem_filter hzf
              have hhand : c.hand ≤ z.hand := lexLe_fst (hmin z hz)
              rw [← hzy]
              simp only [lexLt, shiftAlpha_hand, shiftAlpha_alpha]
              rcases lt_or_eq_of_le hhand with hlt | heq
              · exact Or.inl hlt
              · refine Or.inr ⟨heq, ?_⟩
                rw [sub_self, ratAbs_zero]
                have hza : z.alpha ≠ c.alpha := fun he =>
                  hzc (alpha_inj_of_pairwise hdist hzP hcP he)
                exact ratAbs_pos (fun h0 => hza (by linarith))
          have h1 : recenterOnStream (p0 :: rest) =
              (p0 :: rest).map (shiftAlpha c.alpha) := by
            simp only [recenterOnStream]
            rw [hfps, hcl]
          rw [h1]
          have hmap : (p0 :: rest).map (shiftAlpha c.alpha) =
              shiftAlpha c.alpha p0 :: rest.map (shiftAlpha c.alpha) := rfl
          rw [hmap]
          simp only [recenterOnStream, shiftAlpha_streamID]
          rw [← hmap, fps_filter_shift, hfps]
          rw [hargl]
          show ((p0 :: rest).map (shiftAlpha c.alpha)).map
              (shiftAlpha ((shiftAlpha c.alpha c).alpha)) =
            (p0 :: rest).map (shiftAlpha c.alpha)
          rw [shiftAlpha_alpha, sub_self, map_shiftAlpha_zero]

/-- Witness for C6: the idempotence theorem applied to a concrete two-point
profile (one on-stream point, one off-stream point) with distinct alphas. -/
theorem recenterOnStream_idempotent_witness :
    List.Pairwise (fun p q : ProfPoint => p.alpha ≠ q.alpha)
      [⟨0, 1, 2, 5, some 1, some 1⟩, ⟨1, 1, 3, 4, none, some 2⟩] ∧
    recenterOnStream (recenterOnStream
      [⟨0, 1, 2, 5, some 1, some 1⟩, ⟨1, 1, 3, 4, none, some 2⟩]) =
    recenterOnStream
      [⟨0, 1, 2, 5, some 1, some 1⟩, ⟨1, 1, 3, 4, none, some 2⟩] :=
  ⟨by decide, recenterOnStream_idempotent _ (by decide)⟩
